import Mathlib

/-!
Verification development for the AI_CUP_2024 retrieval-augmented-generation
pipeline (src/Preprocess/build_json.py, src/Preprocess/indexing.py,
src/Model/llm_generate.py).

Text is modelled as `List Char` (Python `str` of valid unicode scalars).
Python string operations used by the scripts (`str.strip`, `str.split` with a
non-empty separator, the `in` containment test, `re.sub` for the three fixed
patterns of the insurance builder) are embedded below.  Recursions that are not
structural are given an explicit fuel argument; the fuel passed by the public
wrappers (the input length) is always sufficient, so the fuel-exhausted branch
is unreachable, and every definition reduces in the kernel.
-/

/-- Whitespace set of Python `str.strip()` restricted to the ASCII range
(space, tab, newline, carriage return, vertical tab, form feed). -/
def isPySpace (c : Char) : Bool :=
  c = ' ' || c = '\t' || c = '\n' || c = '\r' || c = '\x0b' || c = '\x0c'

/-- Drop trailing characters satisfying `p` (right-hand half of `str.strip`). -/
def dropRightWhile (p : Char → Bool) (s : List Char) : List Char :=
  (s.reverse.dropWhile p).reverse

/-- Python `s.strip()`: remove leading and trailing whitespace. -/
def pyStrip (s : List Char) : List Char :=
  dropRightWhile isPySpace (s.dropWhile isPySpace)

/-- Python `pat in s` for strings: some contiguous occurrence of `pat` in `s`. -/
def occursIn (pat : List Char) : List Char → Bool
  | [] => decide (pat <+: ([] : List Char))
  | c :: cs => decide (pat <+: (c :: cs)) || occursIn pat cs

/-- Fuelled worker for Python `s.split(sep)` with non-empty `sep`: scan left to
right, cut at each leftmost non-overlapping occurrence of `sep`.  One unit of
fuel is spent per consumed character, so fuel `s.length` always suffices; the
fuel-exhausted branch is unreachable from `pySplit`. -/
def splitGo (sep : List Char) : Nat → List Char → List Char → List (List Char)
  | _, [], acc => [acc.reverse]
  | 0, c :: cs, acc => [acc.reverse ++ (c :: cs)]
  | n + 1, c :: cs, acc =>
    if sep <+: (c :: cs) then
      acc.reverse :: splitGo sep n ((c :: cs).drop sep.length) []
    else
      splitGo sep n cs (c :: acc)

/-- Python `s.split(sep)` for a non-empty separator.  `pySplit sep [] = [[]]`,
matching Python's `"".split(sep) == [""]`. -/
def pySplit (sep s : List Char) : List (List Char) :=
  splitGo sep s.length s []

/-- The `"[sep]"` delimiter of the finance markdown files. -/
def sepTok : List Char := "[sep]".data

/-- A blank-line separator, Python `"\n\n"`. -/
def nn : List Char := "\n\n".data

/-- Three consecutive newlines (used to state the absence of runs of blank
lines after newline compression). -/
def nl3 : List Char := "\n\n\n".data

example : pySplit nn [] = [[]] := by decide
example : pySplit nn "a\n\nb".data = ["a".data, "b".data] := by decide
example : pySplit nn "a\n\n\nb".data = ["a".data, "\nb".data] := by decide
example : pySplit sepTok "h[sep]x[sep]y".data = ["h".data, "x".data, "y".data] := by decide
example : pyStrip "  a b\n".data = "a b".data := by decide
example : occursIn nn "a\n\nb".data = true := by decide
example : occursIn nn "a\nb".data = false := by decide

/-! ### Prefix/occurrence tool kit -/

/-- Two prefixes of the same list are comparable. -/
lemma preTwo {l₁ l₂ l₃ : List Char} (h₁ : l₁ <+: l₃) (h₂ : l₂ <+: l₃) :
    l₁ <+: l₂ ∨ l₂ <+: l₁ := by
  induction l₁ generalizing l₂ l₃ with
  | nil => exact Or.inl ⟨l₂, rfl⟩
  | cons a t ih =>
    cases l₂ with
    | nil => exact Or.inr ⟨a :: t, rfl⟩
    | cons b t₂ =>
      cases l₃ with
      | nil => exact absurd h₁.length_le (by simp)
      | cons c t₃ =>
        rw [List.cons_prefix_cons] at h₁ h₂
        rcases h₁ with ⟨rfl, h₁⟩
        rcases h₂ with ⟨rfl, h₂⟩
        rcases ih h₁ h₂ with h | h
        · exact Or.inl (List.cons_prefix_cons.mpr ⟨rfl, h⟩)
        · exact Or.inr (List.cons_prefix_cons.mpr ⟨rfl, h⟩)

/-- A short prefix of `x ++ y` is a prefix of `x`. -/
lemma preShort {e x y : List Char} (h : e <+: x ++ y) (hl : e.length ≤ x.length) :
    e <+: x := by
  have h1 : e = List.take e.length (x ++ y) := List.prefix_iff_eq_take.mp h
  rw [List.take_append_of_le_length hl] at h1
  rw [h1]
  exact List.take_prefix _ _

/-- Occurrence characterisation: `occursIn pat s` holds exactly when `s`
splits around a copy of `pat`. -/
lemma occursIn_iff {pat s : List Char} :
    occursIn pat s = true ↔ ∃ u v, s = u ++ pat ++ v := by
  constructor
  · intro h
    induction s with
    | nil =>
      simp only [occursIn, decide_eq_true_eq] at h
      rcases h with ⟨t, ht⟩
      rcases List.append_eq_nil.mp ht with ⟨rfl, rfl⟩
      exact ⟨[], [], rfl⟩
    | cons c cs ih =>
      simp only [occursIn, Bool.or_eq_true, decide_eq_true_eq] at h
      rcases h with ⟨t, ht⟩ | h
      · exact ⟨[], t, by simp [← ht]⟩
      · rcases ih h with ⟨u, v, rfl⟩
        exact ⟨c :: u, v, rfl⟩
  · rintro ⟨u, v, rfl⟩
    induction u with
    | nil =>
      cases hp : pat ++ v with
      | nil =>
        rcases List.append_eq_nil.mp hp with ⟨rfl, rfl⟩
        simp [occursIn]
      | cons c cs =>
        simp only [List.nil_append, hp, occursIn, Bool.or_eq_true, decide_eq_true_eq]
        exact Or.inl (hp ▸ ⟨v, rfl⟩)
    | cons c u ih =>
      simp only [List.cons_append, occursIn, Bool.or_eq_true]
      exact Or.inr ih

/-- No occurrence inside a contiguous part of a larger occurrence-free list. -/
lemma occursIn_of_part {pat s t : List Char} (h : occursIn pat s = false)
    (ht : t <:+: s) : occursIn pat t = false := by
  by_contra hc
  have hc' : occursIn pat t = true := by
    cases hft : occursIn pat t with
    | false => exact absurd hft hc
    | true => rfl
  rcases occursIn_iff.mp hc' with ⟨u, v, hu⟩
  rcases ht with ⟨w, z, hw⟩
  subst hu
  have hs : occursIn pat s = true :=
    occursIn_iff.mpr ⟨w ++ u, v ++ z, by rw [← hw]; simp⟩
  rw [h] at hs
  simp at hs

/-- A prefix of a suffix witnesses an occurrence. -/
lemma occursIn_of_drop {pat a : List Char} {i : Nat}
    (h : pat <+: a.drop i) : occursIn pat a = true := by
  rcases h with ⟨t, ht⟩
  exact occursIn_iff.mpr ⟨a.take i, t, by rw [List.append_assoc, ht, List.take_append_drop]⟩

/-! ### Split lemmas -/

/-- The split worker does not depend on the fuel once it is at least the input
length. -/
lemma splitGo_fuel {sep : List Char} (hsep : sep ≠ []) :
    ∀ n m s acc, s.length ≤ n → s.length ≤ m →
      splitGo sep n s acc = splitGo sep m s acc := by
  intro n
  induction n with
  | zero =>
    intro m s acc hn _
    cases s with
    | nil => cases m <;> rfl
    | cons c cs => simp at hn
  | succ n ih =>
    intro m s acc hn hm
    cases s with
    | nil => cases m <;> rfl
    | cons c cs =>
      cases m with
      | zero => simp at hm
      | succ m =>
        simp only [splitGo]
        by_cases hp : sep <+: (c :: cs)
        · rw [if_pos hp, if_pos hp]
          have hlen : ((c :: cs).drop sep.length).length ≤ n := by
            have : 1 ≤ sep.length := List.length_pos.mpr hsep
            simp only [List.length_drop, List.length_cons] at *
            omega
          have hlen' : ((c :: cs).drop sep.length).length ≤ m := by
            have : 1 ≤ sep.length := List.length_pos.mpr hsep
            simp only [List.length_drop, List.length_cons] at *
            omega
          rw [ih m _ _ hlen hlen']
        · rw [if_neg hp, if_neg hp]
          exact ih m cs (c :: acc) (by simp at hn ⊢; omega) (by simp at hm ⊢; omega)

/-- Splitting a list with no occurrence of the separator yields a single part. -/
lemma splitGo_noOcc {sep : List Char} :
    ∀ n s acc, s.length ≤ n → occursIn sep s = false →
      splitGo sep n s acc = [acc.reverse ++ s] := by
  intro n
  induction n with
  | zero =>
    intro s acc hn _
    cases s with
    | nil => simp [splitGo]
    | cons c cs => simp at hn
  | succ n ih =>
    intro s acc hn hocc
    cases s with
    | nil => simp [splitGo]
    | cons c cs =>
      simp only [occursIn, Bool.or_eq_false_iff, decide_eq_false_iff_not] at hocc
      simp only [splitGo, if_neg hocc.1]
      rw [ih cs (c :: acc) (by simp at hn ⊢; omega) hocc.2]
      simp

/-- Splitting at a first occurrence: if `sep` matches nowhere before position
`a.length` in `a ++ sep ++ b`, the first emitted part is `a` and splitting
continues on `b`. -/
lemma splitGo_append (sep b : List Char) (hsep : sep ≠ []) :
    ∀ (a : List Char) n acc, (a ++ sep ++ b).length ≤ n →
      (∀ i, i < a.length → ¬ sep <+: (a ++ sep ++ b).drop i) →
      splitGo sep n (a ++ sep ++ b) acc = (acc.reverse ++ a) :: pySplit sep b := by
  intro a
  induction a with
  | nil =>
    intro n acc hn _
    cases sep with
    | nil => exact absurd rfl hsep
    | cons c cs =>
      simp only [List.nil_append] at hn ⊢
      cases n with
      | zero => simp at hn
      | succ n =>
        have hpre : (c :: cs) <+: (c :: cs) ++ b := List.prefix_append _ _
        cases hb : (c :: cs) ++ b with
        | nil => simp at hb
        | cons d ds =>
          rw [← hb]
          show splitGo (c :: cs) (n+1) ((c :: cs) ++ b) acc = _
          have hred : splitGo (c :: cs) (n+1) ((c :: cs) ++ b) acc =
              if (c :: cs) <+: ((c :: cs) ++ b) then
                acc.reverse :: splitGo (c :: cs) n (((c :: cs) ++ b).drop (c :: cs).length) []
              else splitGo (c :: cs) n (((c :: cs) ++ b).drop 1) (d :: acc) := by
            rw [hb]; simp [splitGo, hb]
          rw [hred, if_pos hpre, List.drop_left]
          have hblen : b.length ≤ n := by
            simp at hn; omega
          rw [splitGo_fuel hsep n b.length b [] hblen (le_refl _)]
          simp [pySplit]
  | cons x a ih =>
    intro n acc hn hno
    cases n with
    | zero => simp at hn
    | succ n =>
      have h0 : ¬ sep <+: (x :: (a ++ sep ++ b)) := by
        have := hno 0 (by simp)
        simpa using this
      show splitGo sep (n+1) (x :: (a ++ sep ++ b)) acc = _
      simp only [splitGo, if_neg h0]
      rw [ih n (x :: acc) (by simp at hn ⊢; omega) ?_]
      · simp
      · intro i hi
        have := hno (i + 1) (by simp; omega)
        simpa using this

/-- Case analysis for a separator match strictly before position `a.length`
inside `a ++ sep ++ b`: either `sep` already occurs inside `a`, or a nonempty
prefix `e` of `sep` is also its suffix (`sep = a.drop i ++ e`). -/
lemma firstOccCases {sep a b : List Char} {i : Nat} (hi : i < a.length)
    (h : sep <+: (a ++ sep ++ b).drop i) :
    occursIn sep a = true ∨ ∃ e, e ≠ [] ∧ sep = a.drop i ++ e ∧ e <+: sep := by
  have hd : (a ++ sep ++ b).drop i = a.drop i ++ (sep ++ b) := by
    rw [List.append_assoc, List.drop_append_of_le_length (le_of_lt hi)]
  rw [hd] at h
  have hdp : a.drop i <+: a.drop i ++ (sep ++ b) := List.prefix_append _ _
  rcases preTwo h hdp with hsd | hds
  · exact Or.inl (occursIn_of_drop hsd)
  · rcases hds with ⟨e, he⟩
    by_cases hee : e = []
    · subst hee
      rw [List.append_nil] at he
      refine Or.inl (occursIn_of_drop (i := i) ?_)
      rw [he]
    · refine Or.inr ⟨e, hee, he.symm, ?_⟩
      have h' : a.drop i ++ e <+: a.drop i ++ (sep ++ b) := by
        rw [he]
        exact h
      have he2 : e <+: sep ++ b := (List.prefix_append_right_inj _).mp h'
      refine preShort he2 ?_
      have := congrArg List.length he
      simp at this
      omega

/-- The `"[sep]"` delimiter has no nonempty proper border: it cannot equal
`d ++ e` with `e` a nonempty strict prefix of itself and `d` nonempty. -/
lemma sepTok_no_border {d e : List Char} (hd : d ≠ []) (he : e ≠ [])
    (hse : sepTok = d ++ e) (hpe : e <+: sepTok) : False := by
  have hlen : d.length + e.length = 5 := by
    have := congrArg List.length hse
    simp [sepTok] at this
    omega
  have hetake : e = List.take e.length sepTok := List.prefix_iff_eq_take.mp hpe
  have hdtake : d = List.take d.length sepTok :=
    List.prefix_iff_eq_take.mp ⟨e, hse.symm⟩
  have h1 : 1 ≤ e.length := List.length_pos.mpr he
  have h2 : 1 ≤ d.length := List.length_pos.mpr hd
  have hcases : e.length = 1 ∨ e.length = 2 ∨ e.length = 3 ∨ e.length = 4 := by omega
  rcases hcases with h | h | h | h
  · rw [h] at hetake
    rw [show d.length = 4 by omega] at hdtake
    rw [hdtake, hetake] at hse
    revert hse
    decide
  · rw [h] at hetake
    rw [show d.length = 3 by omega] at hdtake
    rw [hdtake, hetake] at hse
    revert hse
    decide
  · rw [h] at hetake
    rw [show d.length = 2 by omega] at hdtake
    rw [hdtake, hetake] at hse
    revert hse
    decide
  · rw [h] at hetake
    rw [show d.length = 1 by omega] at hdtake
    rw [hdtake, hetake] at hse
    revert hse
    decide

/-- The only way `"\n\n"` can straddle a boundary `d ++ e` with `e` a nonempty
proper prefix of it is `d = "\n"`. -/
lemma nn_border {d e : List Char} (hd : d ≠ []) (he : e ≠ [])
    (hse : nn = d ++ e) (hpe : e <+: nn) : d = ['\n'] := by
  have hlen : d.length + e.length = 2 := by
    have := congrArg List.length hse
    simp [nn] at this
    omega
  have h1 : 1 ≤ e.length := List.length_pos.mpr he
  have h2 : 1 ≤ d.length := List.length_pos.mpr hd
  have hdtake : d = List.take d.length nn :=
    List.prefix_iff_eq_take.mp ⟨e, hse.symm⟩
  rw [show d.length = 1 by omega] at hdtake
  rw [hdtake]
  decide

/-- The last element of a list is the last element of any nonempty suffix
obtained by `drop`. -/
lemma getLast?_of_drop {a t : List Char} {i : Nat} (h : a.drop i = t)
    (hne : t ≠ []) : a.getLast? = t.getLast? := by
  have h2 := @List.getLast?_append_of_ne_nil _ (List.take i a) (a.drop i)
    (by rw [h]; exact hne)
  rw [List.take_append_drop] at h2
  rw [h2, h]

/-- Splitting on `"[sep]"` around an explicit first occurrence. -/
lemma pySplit_sepTok (a b : List Char) (hno : occursIn sepTok a = false) :
    pySplit sepTok (a ++ sepTok ++ b) = a :: pySplit sepTok b := by
  have h := splitGo_append sepTok b (by decide) a
    (a ++ sepTok ++ b).length [] (le_refl _) ?_
  · simpa [pySplit] using h
  · intro i hi hp
    rcases firstOccCases hi hp with hocc | ⟨e, hee, hse, hpe⟩
    · rw [hocc] at hno
      simp at hno
    · have hdne : a.drop i ≠ [] := by
        intro hnil
        have := List.drop_eq_nil_iff.mp hnil
        omega
      exact sepTok_no_border hdne hee hse hpe

/-- Splitting on a blank line around an explicit first occurrence, provided
the left part does not itself end in a newline. -/
lemma pySplit_nn (a b : List Char) (hno : occursIn nn a = false)
    (hlast : a.getLast? ≠ some '\n') :
    pySplit nn (a ++ nn ++ b) = a :: pySplit nn b := by
  have h := splitGo_append nn b (by decide) a
    (a ++ nn ++ b).length [] (le_refl _) ?_
  · simpa [pySplit] using h
  · intro i hi hp
    rcases firstOccCases hi hp with hocc | ⟨e, hee, hse, hpe⟩
    · rw [hocc] at hno
      simp at hno
    · have hdne : a.drop i ≠ [] := by
        intro hnil
        have := List.drop_eq_nil_iff.mp hnil
        omega
      have hdn : a.drop i = ['\n'] := nn_border hdne hee hse hpe
      exact hlast (by rw [getLast?_of_drop hdn (by simp)]; rfl)

/-! ### Strip lemmas -/

/-- The head surviving `dropWhile` fails the predicate. -/
lemma head?_dropWhile {p : Char → Bool} {l : List Char} {c : Char}
    (h : (l.dropWhile p).head? = some c) : p c = false := by
  induction l with
  | nil => simp [List.dropWhile] at h
  | cons a l ih =>
    rw [List.dropWhile_cons] at h
    by_cases hp : p a
    · rw [if_pos hp] at h
      exact ih h
    · rw [if_neg hp] at h
      simp only [List.head?_cons, Option.some.injEq] at h
      subst h
      simpa using hp

/-- The last element surviving `dropRightWhile` fails the predicate. -/
lemma getLast?_dropRightWhile {p : Char → Bool} {l : List Char} {c : Char}
    (h : (dropRightWhile p l).getLast? = some c) : p c = false := by
  unfold dropRightWhile at h
  rw [List.getLast?_reverse] at h
  exact head?_dropWhile h

/-- `dropRightWhile` keeps a prefix of its input. -/
lemma dropRightWhile_pre (p : Char → Bool) (l : List Char) :
    dropRightWhile p l <+: l := by
  have h : l.reverse.dropWhile p <:+ l.reverse := List.dropWhile_suffix p
  have h2 : (l.reverse.dropWhile p).reverse <+: l.reverse.reverse :=
    List.reverse_prefix.mpr h
  rwa [List.reverse_reverse] at h2

/-- A nonempty prefix shares its head with the longer list. -/
lemma head?_of_pre {s t : List Char} (h : t <+: s) (hne : t ≠ []) :
    t.head? = s.head? := by
  rcases h with ⟨r, rfl⟩
  cases t with
  | nil => exact absurd rfl hne
  | cons a t => rfl

/-- If a cons-list is a prefix, the head is fixed. -/
lemma pre_head {c : Char} {t w : List Char} (h : (c :: t) <+: w) :
    w.head? = some c := by
  rcases h with ⟨r, hr⟩
  rw [← hr]
  rfl

/-- The head of a stripped string is not whitespace. -/
lemma pyStrip_head {s : List Char} {c : Char}
    (h : (pyStrip s).head? = some c) : isPySpace c = false := by
  unfold pyStrip at h
  have hne : dropRightWhile isPySpace (s.dropWhile isPySpace) ≠ [] := by
    intro h0
    rw [h0] at h
    simp at h
  rw [head?_of_pre (dropRightWhile_pre isPySpace (s.dropWhile isPySpace)) hne] at h
  exact head?_dropWhile h

/-- The last character of a stripped string is not whitespace. -/
lemma pyStrip_last {s : List Char} {c : Char}
    (h : (pyStrip s).getLast? = some c) : isPySpace c = false :=
  getLast?_dropRightWhile h

/-- Strings whose first and last characters are not whitespace are fixed by
`pyStrip`. -/
lemma pyStrip_fix {s : List Char}
    (hh : ∀ c, s.head? = some c → isPySpace c = false)
    (hl : ∀ c, s.getLast? = some c → isPySpace c = false) : pyStrip s = s := by
  have h1 : s.dropWhile isPySpace = s := by
    cases s with
    | nil => rfl
    | cons a t =>
      rw [List.dropWhile_cons, if_neg]
      simp [hh a rfl]
  unfold pyStrip dropRightWhile
  rw [h1]
  have h2 : s.reverse.dropWhile isPySpace = s.reverse := by
    cases hs : s.reverse with
    | nil => rfl
    | cons a t =>
      rw [List.dropWhile_cons, if_neg]
      have ha : s.getLast? = some a := by
        rw [← List.head?_reverse, hs]
        rfl
      simp [hl a ha]
  rw [h2, List.reverse_reverse]

/-- A fixed point of `pyStrip` has a non-whitespace head. -/
lemma fix_head {s : List Char} {c : Char} (hfix : pyStrip s = s)
    (h : s.head? = some c) : isPySpace c = false :=
  pyStrip_head (by rw [hfix]; exact h)

/-- A fixed point of `pyStrip` has a non-whitespace last character. -/
lemma fix_last {s : List Char} {c : Char} (hfix : pyStrip s = s)
    (h : s.getLast? = some c) : isPySpace c = false :=
  pyStrip_last (by rw [hfix]; exact h)

/-- Stripping keeps a contiguous part of the input. -/
lemma pyStrip_part (s : List Char) : pyStrip s <:+: s := by
  have h1 : pyStrip s <+: s.dropWhile isPySpace := dropRightWhile_pre _ _
  have h2 : s.dropWhile isPySpace <:+ s := List.dropWhile_suffix _
  exact h1.isInfix.trans h2.isInfix

/-! ### All parts of a blank-line split are nonempty -/

/-- `occursIn` on the empty string fails for a nonempty pattern. -/
lemma occursIn_nil {pat : List Char} (h : pat ≠ []) : occursIn pat [] = false := by
  simp only [occursIn, decide_eq_false_iff_not]
  intro hp
  rcases hp with ⟨t, ht⟩
  exact h (List.append_eq_nil.mp ht).1

/-- Worker lemma: under the stated side conditions every part emitted while
splitting on `"\n\n"` is nonempty. -/
lemma splitGo_nn_parts : ∀ n s acc, s.length ≤ n →
    occursIn nl3 s = false →
    s.getLast? ≠ some '\n' →
    (s = [] → acc ≠ []) →
    (nn <+: s → acc ≠ []) →
    ∀ p ∈ splitGo nn n s acc, p ≠ [] := by
  intro n
  induction n with
  | zero =>
    intro s acc hn _ _ hnil _ p hp
    cases s with
    | nil =>
      simp only [splitGo, List.mem_singleton] at hp
      subst hp
      simpa using hnil rfl
    | cons c cs => simp at hn
  | succ n ih =>
    intro s acc hn h3 hl hnil hpre p hp
    cases s with
    | nil =>
      simp only [splitGo, List.mem_singleton] at hp
      subst hp
      simpa using hnil rfl
    | cons c cs =>
      by_cases hp2 : nn <+: (c :: cs)
      · have hred : splitGo nn (n + 1) (c :: cs) acc =
            acc.reverse :: splitGo nn n ((c :: cs).drop nn.length) [] := by
          simp only [splitGo]
          rw [if_pos hp2]
        rw [hred] at hp
        obtain ⟨t, ht⟩ := hp2
        have hst : c :: cs = nn ++ t := ht.symm
        have htne : t ≠ [] := by
          intro h0
          subst h0
          rw [List.append_nil] at hst
          rw [hst] at hl
          exact hl rfl
        have hdrop : (c :: cs).drop nn.length = t := by
          rw [hst]
          exact List.drop_left nn t
        rw [hdrop] at hp
        rcases List.mem_cons.mp hp with rfl | hp'
        · simpa using hpre ⟨t, ht⟩
        · refine ih t [] ?_ ?_ ?_ ?_ ?_ p hp'
          · have hlen2 := congrArg List.length hst
            simp [nn] at hlen2
            simp at hn
            omega
          · exact occursIn_of_part h3 ⟨nn, [], by rw [← hst]; simp⟩
          · rw [← List.getLast?_append_of_ne_nil nn htne, ← hst]
            exact hl
          · intro h0
            exact absurd h0 htne
          · intro hnt
            rcases hnt with ⟨r, hr⟩
            have : occursIn nl3 (c :: cs) = true := by
              refine occursIn_iff.mpr ⟨[], '\n' :: r, ?_⟩
              rw [hst, ← hr]
              rfl
            rw [this] at h3
            simp at h3
      · simp only [splitGo, if_neg hp2] at hp
        refine ih cs (c :: acc) (by simp at hn ⊢; omega) ?_ ?_ (by simp) (by simp) p hp
        · simp only [occursIn, Bool.or_eq_false_iff] at h3
          exact h3.2
        · cases cs with
          | nil => simp
          | cons c2 t2 =>
            rw [← List.getLast?_cons_cons]
            exact hl

/-- All parts of a blank-line split are nonempty, provided the input is a
nonempty string that neither starts nor ends with a newline and contains no
three consecutive newlines. -/
lemma pySplit_nn_parts {s : List Char} (hne : s ≠ [])
    (hh : s.head? ≠ some '\n') (hl : s.getLast? ≠ some '\n')
    (h3 : occursIn nl3 s = false) :
    ∀ p ∈ pySplit nn s, p ≠ [] := by
  refine splitGo_nn_parts s.length s [] (le_refl _) h3 hl
    (fun h => absurd h hne) (fun hp => ?_)
  exact absurd (pre_head (t := ['\n']) hp) hh

/-! ### Insurance builder text cleaning (`build_insurance_json`)

`removeTitles` embeds `re.sub(r"^#+.*$", "", texts, flags=re.MULTILINE)`,
`removeImages` embeds `re.sub(r"!\[.*?\]\(.*?\)", "", texts)` (with `.` not
matching a newline and lazy quantifiers backtracking to later candidates), and
`compressNewlines` embeds `re.sub(r"\n{2,}", "\n\n", texts)`. -/

/-- Replace a markdown title line (a line whose first character is `#`) by the
empty line, as the multiline regex `^#+.*$` does. -/
def removeTitlesLine (l : List Char) : List Char :=
  match l with
  | '#' :: _ => []
  | _ => l

/-- Apply the title regex to every line of the text. -/
def removeTitles (s : List Char) : List Char :=
  List.intercalate ['\n'] ((pySplit ['\n'] s).map removeTitlesLine)

/-- Scan for the first `)` before any newline; return the remainder after it. -/
def findClose (s : List Char) : Option (List Char) :=
  match s with
  | [] => none
  | x :: xs => if x = '\n' then none else if x = ')' then some xs else findClose xs

/-- Given the text following a literal `![`, return the remainder after the
shortest completed image pattern `.*?\]\(.*?\)`, or `none` when the pattern
cannot complete before a newline or the end of the text.  When the `](` at a
candidate `]` has no closing `)` before a newline, the lazy outer `.*?`
backtracks past that `]`, which the recursive call models. -/
def imageTail (s : List Char) : Option (List Char) :=
  match s with
  | [] => none
  | x :: xs =>
    if x = '\n' then none
    else if x = ']' then
      match xs with
      | '(' :: ys =>
        match findClose ys with
        | some r => some r
        | none => imageTail xs
      | _ => imageTail xs
    else imageTail xs

/-- Fuelled scan deleting every non-overlapping image match, resuming after
each deleted match.  `imageTail` returns a strict suffix of its input, so fuel
`s.length` always suffices. -/
def removeImagesGo : Nat → List Char → List Char
  | 0, s => s
  | _ + 1, [] => []
  | n + 1, c :: cs =>
    if c = '!' then
      match cs with
      | '[' :: cs2 =>
        match imageTail cs2 with
        | some r => removeImagesGo n r
        | none => c :: removeImagesGo n cs
      | _ => c :: removeImagesGo n cs
    else c :: removeImagesGo n cs

/-- Delete every markdown image `![...](...)` from the text. -/
def removeImages (s : List Char) : List Char := removeImagesGo s.length s

/-- Fuelled compression of every maximal run of two or more newlines down to
exactly two, as the greedy regex `\n{2,}` does.  Fuel `s.length` suffices. -/
def compressGo : Nat → List Char → List Char
  | 0, s => s
  | _ + 1, [] => []
  | _ + 1, [c] => [c]
  | n + 1, c :: c2 :: cs2 =>
    if c = '\n' then
      if c2 = '\n' then
        '\n' :: '\n' :: compressGo n (cs2.dropWhile (fun x => x = '\n'))
      else
        c :: compressGo n (c2 :: cs2)
    else
      c :: compressGo n (c2 :: cs2)

/-- Compress every run of two or more newlines down to exactly two. -/
def compressNewlines (s : List Char) : List Char := compressGo s.length s

/-- The full cleaning chain of the insurance builder: strip titles, strip
images, compress blank lines, then `str.strip()`. -/
def clean_insurance (s : List Char) : List Char :=
  pyStrip (compressNewlines (removeImages (removeTitles s)))

example : removeTitles "# T\nbody".data = "\nbody".data := by decide
example : removeImages "a![x](y)b".data = "ab".data := by decide
example : removeImages "a![x]b](c)d".data = "ad".data := by decide
example : removeImages "a![x]b\nc".data = "a![x]b\nc".data := by decide
example : compressNewlines "a\n\n\n\nb\nc".data = "a\n\nb\nc".data := by decide
example : clean_insurance "# T".data = [] := by decide

/-- Compression preserves the first character. -/
lemma compressGo_head (n : Nat) (s : List Char) :
    (compressGo n s).head? = s.head? := by
  cases n with
  | zero => rfl
  | succ n =>
    cases s with
    | nil => rfl
    | cons c cs =>
      cases cs with
      | nil => rfl
      | cons c2 cs2 =>
        simp only [compressGo]
        by_cases hc : c = '\n'
        · rw [if_pos hc]
          by_cases h2 : c2 = '\n'
          · rw [if_pos h2]
            simp [hc]
          · rw [if_neg h2]
            simp
        · rw [if_neg hc]
          simp

/-- The output of newline compression never contains three consecutive
newlines. -/
lemma compressGo_no3 : ∀ n s, s.length ≤ n →
    occursIn nl3 (compressGo n s) = false := by
  intro n
  induction n with
  | zero =>
    intro s hn
    cases s with
    | nil => decide
    | cons c cs => simp at hn
  | succ n ih =>
    intro s hn
    cases s with
    | nil =>
      show occursIn nl3 [] = false
      decide
    | cons c cs =>
      cases cs with
      | nil =>
        have hb : ¬ nl3 <+: [c] := by
          intro hb
          have := hb.length_le
          simp [nl3] at this
        show (decide (nl3 <+: [c]) || occursIn nl3 []) = false
        rw [occursIn_nil (by decide)]
        simp [hb]
      | cons c2 cs2 =>
        simp only [compressGo]
        by_cases hc : c = '\n'
        · rw [if_pos hc]
          by_cases h2 : c2 = '\n'
          · rw [if_pos h2]
            have hw : (compressGo n (cs2.dropWhile (fun x => x = '\n'))).head? ≠
                some '\n' := by
              rw [compressGo_head]
              intro hhd
              have := head?_dropWhile hhd
              simp at this
            set w := compressGo n (cs2.dropWhile (fun x => x = '\n')) with hwdef
            have hwocc : occursIn nl3 w = false := by
              refine ih _ ?_
              have h1 : (cs2.dropWhile (fun x => x = '\n')).length ≤ cs2.length :=
                (List.dropWhile_suffix _).length_le
              simp at hn
              omega
            show (decide (nl3 <+: '\n' :: '\n' :: w) ||
              (decide (nl3 <+: '\n' :: w) || occursIn nl3 w)) = false
            rw [hwocc]
            have hb1 : ¬ nl3 <+: '\n' :: '\n' :: w := by
              intro hb
              rw [show nl3 = '\n' :: '\n' :: ['\n'] from rfl] at hb
              rw [List.cons_prefix_cons] at hb
              rw [List.cons_prefix_cons] at hb
              exact hw (pre_head hb.2.2)
            have hb2 : ¬ nl3 <+: '\n' :: w := by
              intro hb
              rw [show nl3 = '\n' :: '\n' :: ['\n'] from rfl] at hb
              rw [List.cons_prefix_cons] at hb
              have := pre_head hb.2
              exact hw this
            simp [hb1, hb2]
          · rw [if_neg h2]
            have hocc : occursIn nl3 (compressGo n (c2 :: cs2)) = false := by
              refine ih _ ?_
              simp at hn ⊢
              omega
            show (decide (nl3 <+: c :: compressGo n (c2 :: cs2)) ||
              occursIn nl3 (compressGo n (c2 :: cs2))) = false
            rw [hocc]
            have hb : ¬ nl3 <+: c :: compressGo n (c2 :: cs2) := by
              intro hb
              rw [show nl3 = '\n' :: '\n' :: ['\n'] from rfl] at hb
              rw [List.cons_prefix_cons] at hb
              have hh := pre_head hb.2
              rw [compressGo_head] at hh
              simp at hh
              exact h2 hh
            simp [hb]
        · rw [if_neg hc]
          have hocc : occursIn nl3 (compressGo n (c2 :: cs2)) = false := by
            refine ih _ ?_
            simp at hn ⊢
            omega
          show (decide (nl3 <+: c :: compressGo n (c2 :: cs2)) ||
            occursIn nl3 (compressGo n (c2 :: cs2))) = false
          rw [hocc]
          have hb : ¬ nl3 <+: c :: compressGo n (c2 :: cs2) := by
            intro hb
            rw [show nl3 = '\n' :: '\n' :: ['\n'] from rfl] at hb
            rw [List.cons_prefix_cons] at hb
            exact hc hb.1.symm
          simp [hb]

/-- The cleaned insurance text contains no three consecutive newlines. -/
lemma clean_insurance_no3 (s : List Char) :
    occursIn nl3 (clean_insurance s) = false := by
  unfold clean_insurance compressNewlines
  exact occursIn_of_part (compressGo_no3 _ _ (le_refl _)) (pyStrip_part _)

/-! ### Data model and the three builders (`build_json.py`)

Directory walks are modelled by passing the file listing explicitly: the
finance builder receives the list of `(filename, file content)` pairs of
`../finance_markdown`, the insurance builder the list of
`(folder name, [(filename, file content)])` pairs of the sub-directories of
`../insurance_markdown`, and the FAQ builder the `(source, Q&A list)` pairs of
`../pid_map_content.json`. -/

/-- A document chunk record `{text, metadata}` as written to the category
JSON files. -/
structure Metadata where
  source : List Char
  category : List Char
  deriving DecidableEq

/-- A `{text, metadata}` record produced by the builders. -/
structure ChunkRecord where
  text : List Char
  metadata : Metadata
  deriving DecidableEq

/-- One iteration of the finance chunk loop: strip the chunk, drop it when
empty, and route it to the tables list when it contains both `|` and `-`,
otherwise to the texts list.  The accumulator is `(texts, tables)`. -/
def routeChunk (acc : List (List Char) × List (List Char)) (chunk : List Char) :
    List (List Char) × List (List Char) :=
  let c := pyStrip chunk
  if c = [] then acc
  else if '|' ∈ c ∧ '-' ∈ c then (acc.1, acc.2 ++ [c])
  else (acc.1 ++ [c], acc.2)

/-- The finance chunk loop over all `[sep]`-separated contents of one file:
split each content at blank lines and route every chunk. -/
def classifyChunks (contents : List (List Char)) :
    List (List Char) × List (List Char) :=
  contents.foldl (fun acc content => (pySplit nn content).foldl routeChunk acc) ([], [])

/-- `file.split(".")[0].split("_")[0]` of the finance builder. -/
def financeSource (name : List Char) : List Char :=
  (pySplit ['_'] ((pySplit ['.'] name).headD [])).headD []

/-- Processing of a single finance markdown file: split at `"[sep]"`, strip
the header and the remaining contents, classify the blank-line chunks, then
emit one record per text chunk followed by one record per table chunk, each
text prefixed by the header and a newline. -/
def build_finance_file (name content : List Char) : List ChunkRecord :=
  let parts := pySplit sepTok content
  let head := pyStrip (parts.headD [])
  let contents := (parts.drop 1).map pyStrip
  let tt := classifyChunks contents
  (tt.1.map fun t => ⟨head ++ '\n' :: t, ⟨financeSource name, "finance".data⟩⟩) ++
  (tt.2.map fun t => ⟨head ++ '\n' :: t, ⟨financeSource name, "finance".data⟩⟩)

/-- `build_finance_json`: accumulate the records of every finance file. -/
def build_finance_json (files : List (List Char × List Char)) : List ChunkRecord :=
  files.foldl (fun docs f => docs ++ build_finance_file f.1 f.2) []

/-- Processing of a single insurance markdown file: clean the text and emit
one record per blank-line paragraph. -/
def build_insurance_file (folder content : List Char) : List ChunkRecord :=
  (pySplit nn (clean_insurance content)).map
    fun t => ⟨t, ⟨folder, "insurance".data⟩⟩

/-- `build_insurance_json`: accumulate the records of every `.md` file of
every sub-directory. -/
def build_insurance_json
    (dirs : List (List Char × List (List Char × List Char))) : List ChunkRecord :=
  dirs.foldl
    (fun docs d =>
      d.2.foldl
        (fun ds f =>
          if ".md".data <:+ f.1 then ds ++ build_insurance_file d.1 f.2 else ds)
        docs)
    []

/-- A question/answers pair of the FAQ source file. -/
structure QA where
  question : List Char
  answers : List (List Char)
  deriving DecidableEq

/-- `qa["question"] + "\n" + "\n".join(qa["answers"])`. -/
def faqText (qa : QA) : List Char :=
  qa.question ++ '\n' :: List.intercalate ['\n'] qa.answers

/-- `build_faq_json`: one record per Q&A pair of every source. -/
def build_faq_json (datas : List (List Char × List QA)) : List ChunkRecord :=
  datas.foldl
    (fun docs sq =>
      sq.2.foldl (fun ds qa => ds ++ [⟨faqText qa, ⟨sq.1, "faq".data⟩⟩]) docs)
    []

/-! ### Membership in the builders' accumulating folds -/

/-- Membership in the finance builder's accumulating fold. -/
lemma mem_build_finance_aux (files : List (List Char × List Char))
    (r : ChunkRecord) :
    ∀ init, r ∈ files.foldl (fun docs f => docs ++ build_finance_file f.1 f.2) init ↔
      r ∈ init ∨ ∃ f ∈ files, r ∈ build_finance_file f.1 f.2 := by
  induction files with
  | nil =>
    intro init
    simp
  | cons f fs ih =>
    intro init
    simp only [List.foldl_cons]
    rw [ih]
    simp only [List.mem_append, List.mem_cons]
    constructor
    · rintro ((hr | hr) | ⟨f', hf', hr⟩)
      · exact Or.inl hr
      · exact Or.inr ⟨f, Or.inl rfl, hr⟩
      · exact Or.inr ⟨f', Or.inr hf', hr⟩
    · rintro (hr | ⟨f', hf' | hf', hr⟩)
      · exact Or.inl (Or.inl hr)
      · subst hf'
        exact Or.inl (Or.inr hr)
      · exact Or.inr ⟨f', hf', hr⟩

/-- Records of the finance builder come from some input file. -/
lemma mem_build_finance {files : List (List Char × List Char)} {r : ChunkRecord}
    (h : r ∈ build_finance_json files) :
    ∃ f ∈ files, r ∈ build_finance_file f.1 f.2 := by
  unfold build_finance_json at h
  rcases (mem_build_finance_aux files r []).mp h with hr | hr
  · simp at hr
  · exact hr

/-- Membership in the insurance builder's inner (per-directory) fold. -/
lemma mem_insurance_inner (d : List Char × List (List Char × List Char))
    (r : ChunkRecord) :
    ∀ (fs : List (List Char × List Char)) init,
      r ∈ fs.foldl
        (fun ds f =>
          if ".md".data <:+ f.1 then ds ++ build_insurance_file d.1 f.2 else ds)
        init ↔
      r ∈ init ∨ ∃ f ∈ fs, ".md".data <:+ f.1 ∧ r ∈ build_insurance_file d.1 f.2 := by
  intro fs
  induction fs with
  | nil =>
    intro init
    simp
  | cons f fs ih =>
    intro init
    simp only [List.foldl_cons]
    rw [ih]
    by_cases hmd : ".md".data <:+ f.1
    · rw [if_pos hmd]
      simp only [List.mem_append, List.mem_cons]
      constructor
      · rintro ((hr | hr) | ⟨f', hf', hc, hr⟩)
        · exact Or.inl hr
        · exact Or.inr ⟨f, Or.inl rfl, hmd, hr⟩
        · exact Or.inr ⟨f', Or.inr hf', hc, hr⟩
      · rintro (hr | ⟨f', hf' | hf', hc, hr⟩)
        · exact Or.inl (Or.inl hr)
        · subst hf'
          exact Or.inl (Or.inr hr)
        · exact Or.inr ⟨f', hf', hc, hr⟩
    · rw [if_neg hmd]
      simp only [List.mem_cons]
      constructor
      · rintro (hr | ⟨f', hf', hc, hr⟩)
        · exact Or.inl hr
        · exact Or.inr ⟨f', Or.inr hf', hc, hr⟩
      · rintro (hr | ⟨f', hf' | hf', hc, hr⟩)
        · exact Or.inl hr
        · subst hf'
          exact absurd hc hmd
        · exact Or.inr ⟨f', hf', hc, hr⟩

/-- Membership in the insurance builder's outer fold. -/
lemma mem_insurance_outer (r : ChunkRecord) :
    ∀ (dirs : List (List Char × List (List Char × List Char))) init,
      r ∈ dirs.foldl
        (fun docs d =>
          d.2.foldl
            (fun ds f =>
              if ".md".data <:+ f.1 then ds ++ build_insurance_file d.1 f.2 else ds)
            docs)
        init ↔
      r ∈ init ∨
        ∃ d ∈ dirs, ∃ f ∈ d.2, ".md".data <:+ f.1 ∧ r ∈ build_insurance_file d.1 f.2 := by
  intro dirs
  induction dirs with
  | nil =>
    intro init
    simp
  | cons d ds ih =>
    intro init
    simp only [List.foldl_cons]
    rw [ih, mem_insurance_inner d r d.2 init]
    constructor
    · rintro ((hr | ⟨f, hf, hc, hr⟩) | ⟨d', hd', f, hf, hc, hr⟩)
      · exact Or.inl hr
      · exact Or.inr ⟨d, List.mem_cons_self d ds, f, hf, hc, hr⟩
      · exact Or.inr ⟨d', List.mem_cons_of_mem d hd', f, hf, hc, hr⟩
    · rintro (hr | ⟨d', hd', f, hf, hc, hr⟩)
      · exact Or.inl (Or.inl hr)
      · rcases List.mem_cons.mp hd' with rfl | hd'
        · exact Or.inl (Or.inr ⟨f, hf, hc, hr⟩)
        · exact Or.inr ⟨d', hd', f, hf, hc, hr⟩

/-- Records of the insurance builder come from some `.md` file of some
sub-directory. -/
lemma mem_build_insurance {dirs : List (List Char × List (List Char × List Char))}
    {r : ChunkRecord} (h : r ∈ build_insurance_json dirs) :
    ∃ d ∈ dirs, ∃ f ∈ d.2, ".md".data <:+ f.1 ∧ r ∈ build_insurance_file d.1 f.2 := by
  unfold build_insurance_json at h
  rcases (mem_insurance_outer r dirs []).mp h with hr | hr
  · simp at hr
  · exact hr

/-- Membership in the FAQ builder's inner (per-source) fold. -/
lemma mem_faq_inner (sq : List Char × List QA) (r : ChunkRecord) :
    ∀ (qas : List QA) init,
      r ∈ qas.foldl (fun ds qa => ds ++ [⟨faqText qa, ⟨sq.1, "faq".data⟩⟩]) init ↔
        r ∈ init ∨ ∃ qa ∈ qas, r = ⟨faqText qa, ⟨sq.1, "faq".data⟩⟩ := by
  intro qas
  induction qas with
  | nil =>
    intro init
    simp
  | cons qa qas ih =>
    intro init
    simp only [List.foldl_cons]
    rw [ih]
    simp only [List.mem_append, List.mem_cons, List.not_mem_nil, or_false]
    constructor
    · rintro ((hr | hr) | ⟨qa', hqa', hr⟩)
      · exact Or.inl hr
      · exact Or.inr ⟨qa, Or.inl rfl, hr⟩
      · exact Or.inr ⟨qa', Or.inr hqa', hr⟩
    · rintro (hr | ⟨qa', hqa' | hqa', hr⟩)
      · exact Or.inl (Or.inl hr)
      · subst hqa'
        exact Or.inl (Or.inr hr)
      · exact Or.inr ⟨qa', hqa', hr⟩

/-- Membership in the FAQ builder's outer fold. -/
lemma mem_faq_outer (r : ChunkRecord) :
    ∀ (datas : List (List Char × List QA)) init,
      r ∈ datas.foldl
        (fun docs sq =>
          sq.2.foldl (fun ds qa => ds ++ [⟨faqText qa, ⟨sq.1, "faq".data⟩⟩]) docs)
        init ↔
      r ∈ init ∨ ∃ sq ∈ datas, ∃ qa ∈ sq.2, r = ⟨faqText qa, ⟨sq.1, "faq".data⟩⟩ := by
  intro datas
  induction datas with
  | nil =>
    intro init
    simp
  | cons sq sqs ih =>
    intro init
    simp only [List.foldl_cons]
    rw [ih, mem_faq_inner sq r sq.2 init]
    constructor
    · rintro ((hr | ⟨qa, hqa, hr⟩) | ⟨sq', hsq', qa, hqa, hr⟩)
      · exact Or.inl hr
      · exact Or.inr ⟨sq, List.mem_cons_self sq sqs, qa, hqa, hr⟩
      · exact Or.inr ⟨sq', List.mem_cons_of_mem sq hsq', qa, hqa, hr⟩
    · rintro (hr | ⟨sq', hsq', qa, hqa, hr⟩)
      · exact Or.inl (Or.inl hr)
      · rcases List.mem_cons.mp hsq' with rfl | hsq'
        · exact Or.inl (Or.inr ⟨qa, hqa, hr⟩)
        · exact Or.inr ⟨sq', hsq', qa, hqa, hr⟩

/-- Records of the FAQ builder come from some Q&A pair of some source. -/
lemma mem_build_faq {datas : List (List Char × List QA)} {r : ChunkRecord}
    (h : r ∈ build_faq_json datas) :
    ∃ sq ∈ datas, ∃ qa ∈ sq.2, r = ⟨faqText qa, ⟨sq.1, "faq".data⟩⟩ := by
  unfold build_faq_json at h
  rcases (mem_faq_outer r datas []).mp h with hr | hr
  · simp at hr
  · exact hr

/-! ### Intermediate JSON files: serialisation and deserialisation

`dumpChunks` renders a chunk list exactly as
`json.dump(documents, f, ensure_ascii=False, indent=4)` writes the category
files (string escaping of `\`, `"`, the short control escapes and `\u00xx`
for other control characters; four-space indentation; `", "`/`","` item
separators).  `parseChunks` models `json.load` as the indexer applies it to
such a file: it accepts exactly the grammar `json.dump` emits for a list of
`{text, metadata{source, category}}` records and rejects everything else,
unescaping string escapes the way the JSON string grammar does. -/

/-- Lowercase hexadecimal digit. -/
def hexDigit (n : Nat) : Char := "0123456789abcdef".data.getD n '0'

/-- JSON string escaping of one character, as `json.dumps` with
`ensure_ascii=False` performs it. -/
def escapeChar (c : Char) : List Char :=
  if c = '"' then ['\\', '"']
  else if c = '\\' then ['\\', '\\']
  else if c = '\x08' then ['\\', 'b']
  else if c = '\x0c' then ['\\', 'f']
  else if c = '\n' then ['\\', 'n']
  else if c = '\r' then ['\\', 'r']
  else if c = '\t' then ['\\', 't']
  else if c.toNat < 32 then
    ['\\', 'u', '0', '0', hexDigit (c.toNat / 16), hexDigit (c.toNat % 16)]
  else [c]

/-- Escape every character of a string body. -/
def escAll : List Char → List Char
  | [] => []
  | c :: cs => escapeChar c ++ escAll cs

/-- A JSON string literal, quotes included. -/
def renderString (s : List Char) : List Char := '"' :: (escAll s ++ ['"'])

/-- Literal text of a dumped record before the `text` string. -/
def litRecA : List Char := "    \x7b\n        \"text\": ".data

/-- Literal text between the `text` string and the `source` string. -/
def litRecB : List Char := ",\n        \"metadata\": \x7b\n            \"source\": ".data

/-- Literal text between the `source` string and the `category` string. -/
def litRecC : List Char := ",\n            \"category\": ".data

/-- Literal text closing a dumped record. -/
def litRecD : List Char := "\n        \x7d\n    \x7d".data

/-- One dumped `{text, metadata}` record at array-item indentation. -/
def renderRecord (r : ChunkRecord) : List Char :=
  litRecA ++ renderString r.text ++ litRecB ++ renderString r.metadata.source ++
  litRecC ++ renderString r.metadata.category ++ litRecD

/-- The dumped records from the current one on, including the closing `]`. -/
def dumpTail : List ChunkRecord → List Char
  | [] => "\n]".data
  | r :: rs =>
    renderRecord r ++ (if rs.isEmpty then "\n]".data else ",\n".data ++ dumpTail rs)

/-- The full text `json.dump(documents, f, ensure_ascii=False, indent=4)`
writes for a chunk list. -/
def dumpChunks (l : List ChunkRecord) : List Char :=
  if l.isEmpty then "[]".data else "[\n".data ++ dumpTail l

example : dumpChunks [⟨"a".data, ⟨"1".data, "finance".data⟩⟩] =
    "[\n    \x7b\n        \"text\": \"a\",\n        \"metadata\": \x7b\n            \"source\": \"1\",\n            \"category\": \"finance\"\n        \x7d\n    \x7d\n]".data := by
  decide

example : dumpChunks [⟨['\x01', '\x1f', '\x08'], ⟨[], []⟩⟩] =
    "[\n    \x7b\n        \"text\": \"\\u0001\\u001f\\b\",\n        \"metadata\": \x7b\n            \"source\": \"\",\n            \"category\": \"\"\n        \x7d\n    \x7d\n]".data := by
  decide

/-- Consume an expected literal prefix. -/
def expectLit (lit s : List Char) : Option (List Char) :=
  if lit <+: s then some (s.drop lit.length) else none

/-- Value of one hexadecimal digit. -/
def parseHexDigit (c : Char) : Option Nat :=
  if '0' ≤ c ∧ c ≤ '9' then some (c.toNat - '0'.toNat)
  else if 'a' ≤ c ∧ c ≤ 'f' then some (c.toNat - 'a'.toNat + 10)
  else if 'A' ≤ c ∧ c ≤ 'F' then some (c.toNat - 'A'.toNat + 10)
  else none

/-- The character denoted by a short JSON escape. -/
def unescapeChar (c : Char) : Option Char :=
  if c = '"' then some '"'
  else if c = '\\' then some '\\'
  else if c = '/' then some '/'
  else if c = 'b' then some '\x08'
  else if c = 'f' then some '\x0c'
  else if c = 'n' then some '\n'
  else if c = 'r' then some '\r'
  else if c = 't' then some '\t'
  else none

/-- Code point of a four-digit `\uXXXX` escape. -/
def hex4 (a b c d : Char) : Option Nat :=
  match parseHexDigit a, parseHexDigit b, parseHexDigit c, parseHexDigit d with
  | some d1, some d2, some d3, some d4 => some (d1 * 4096 + d2 * 256 + d3 * 16 + d4)
  | _, _, _, _ => none

/-- Parse a JSON string body up to and including the closing quote, returning
the unescaped content and the remaining input.  Raw control characters are
rejected, as `json.load` does in its default strict mode. -/
def parseStrBody : List Char → Option (List Char × List Char)
  | [] => none
  | c :: cs =>
    if c = '"' then some ([], cs)
    else if c = '\\' then
      match cs with
      | [] => none
      | e :: cs2 =>
        if e = 'u' then
          match cs2 with
          | h1 :: h2 :: h3 :: h4 :: cs3 =>
            match hex4 h1 h2 h3 h4 with
            | some code =>
              (parseStrBody cs3).map fun p => (Char.ofNat code :: p.1, p.2)
            | none => none
          | _ => none
        else
          match unescapeChar e with
          | some c2 => (parseStrBody cs2).map fun p => (c2 :: p.1, p.2)
          | none => none
    else if c.toNat < 32 then none
    else (parseStrBody cs).map fun p => (c :: p.1, p.2)

/-- Parse one dumped record, returning it and the remaining input. -/
def parseRecord (s : List Char) : Option (ChunkRecord × List Char) :=
  match expectLit (litRecA ++ ['"']) s with
  | none => none
  | some s1 =>
    match parseStrBody s1 with
    | none => none
    | some (t, s2) =>
      match expectLit (litRecB ++ ['"']) s2 with
      | none => none
      | some s3 =>
        match parseStrBody s3 with
        | none => none
        | some (src, s4) =>
          match expectLit (litRecC ++ ['"']) s4 with
          | none => none
          | some s5 =>
            match parseStrBody s5 with
            | none => none
            | some (cat, s6) =>
              match expectLit litRecD s6 with
              | none => none
              | some s7 => some (⟨t, ⟨src, cat⟩⟩, s7)

/-- Fuelled loop over the dumped records up to the closing `]`. -/
def parseRecordsGo : Nat → List Char → Option (List ChunkRecord)
  | 0, _ => none
  | n + 1, s =>
    match parseRecord s with
    | none => none
    | some (r, s1) =>
      match expectLit "\n]".data s1 with
      | some rest => if rest.isEmpty then some [r] else none
      | none =>
        match expectLit ",\n".data s1 with
        | none => none
        | some s2 =>
          match parseRecordsGo n s2 with
          | none => none
          | some rs => some (r :: rs)

/-- Parse a whole dumped chunk-list file. -/
def parseChunks (s : List Char) : Option (List ChunkRecord) :=
  if s = "[]".data then some []
  else
    match expectLit "[\n".data s with
    | none => none
    | some s1 => parseRecordsGo s1.length s1

set_option maxRecDepth 4000 in
example :
    parseChunks (dumpChunks [⟨"a\"b\\c\nd".data, ⟨"1".data, "finance".data⟩⟩,
      ⟨['\x01', '\x7f'], ⟨[], "faq".data⟩⟩]) =
    some [⟨"a\"b\\c\nd".data, ⟨"1".data, "finance".data⟩⟩,
      ⟨['\x01', '\x7f'], ⟨[], "faq".data⟩⟩] := by
  decide

/-! ### Round-trip lemmas -/

/-- Consuming a literal that is present succeeds. -/
lemma expectLit_append (lit rest : List Char) :
    expectLit lit (lit ++ rest) = some rest := by
  unfold expectLit
  rw [if_pos (List.prefix_append lit rest), List.drop_left]

/-- Consuming a literal followed by an opening quote. -/
lemma expectLit_quote (lit Y : List Char) :
    expectLit (lit ++ ['"']) (lit ++ '"' :: Y) = some Y := by
  have h : lit ++ '"' :: Y = (lit ++ ['"']) ++ Y := by simp
  rw [h, expectLit_append]

/-- Hexadecimal digits round-trip. -/
lemma parseHex_hexDigit : ∀ d, d < 16 → parseHexDigit (hexDigit d) = some d := by
  decide

/-- The hex block emitted for a control character parses back to its code
point. -/
lemma hex4_control (c : Char) (h8 : c.toNat < 32) :
    hex4 '0' '0' (hexDigit (c.toNat / 16)) (hexDigit (c.toNat % 16)) =
      some c.toNat := by
  unfold hex4
  rw [parseHex_hexDigit (c.toNat / 16) (by omega),
    parseHex_hexDigit (c.toNat % 16) (by omega),
    show parseHexDigit '0' = some 0 from rfl]
  show some (0 * 4096 + 0 * 256 + c.toNat / 16 * 16 + c.toNat % 16) = some c.toNat
  rw [show 0 * 4096 + 0 * 256 + c.toNat / 16 * 16 + c.toNat % 16 = c.toNat by omega]

/-- Parsing inverts escaping: the body parser consumes exactly the escaped
string and the closing quote. -/
lemma parseStrBody_escAll : ∀ (s rest : List Char),
    parseStrBody (escAll s ++ '"' :: rest) = some (s, rest) := by
  intro s
  induction s with
  | nil =>
    intro rest
    rw [show escAll [] ++ '"' :: rest = '"' :: rest from rfl, parseStrBody.eq_def]
    simp
  | cons c cs ih =>
    intro rest
    rw [show escAll (c :: cs) = escapeChar c ++ escAll cs from rfl, List.append_assoc]
    by_cases h1 : c = '"'
    · subst h1
      show parseStrBody ('\\' :: '"' :: (escAll cs ++ '"' :: rest)) = _
      rw [parseStrBody.eq_def]
      simp [unescapeChar, ih rest]
    · by_cases h2 : c = '\\'
      · subst h2
        show parseStrBody ('\\' :: '\\' :: (escAll cs ++ '"' :: rest)) = _
        rw [parseStrBody.eq_def]
        simp [unescapeChar, ih rest]
      · by_cases h3 : c = '\x08'
        · subst h3
          show parseStrBody ('\\' :: 'b' :: (escAll cs ++ '"' :: rest)) = _
          rw [parseStrBody.eq_def]
          simp [unescapeChar, ih rest]
        · by_cases h4 : c = '\x0c'
          · subst h4
            show parseStrBody ('\\' :: 'f' :: (escAll cs ++ '"' :: rest)) = _
            rw [parseStrBody.eq_def]
            simp [unescapeChar, ih rest]
          · by_cases h5 : c = '\n'
            · subst h5
              show parseStrBody ('\\' :: 'n' :: (escAll cs ++ '"' :: rest)) = _
              rw [parseStrBody.eq_def]
              simp [unescapeChar, ih rest]
            · by_cases h6 : c = '\r'
              · subst h6
                show parseStrBody ('\\' :: 'r' :: (escAll cs ++ '"' :: rest)) = _
                rw [parseStrBody.eq_def]
                simp [unescapeChar, ih rest]
              · by_cases h7 : c = '\t'
                · subst h7
                  show parseStrBody ('\\' :: 't' :: (escAll cs ++ '"' :: rest)) = _
                  rw [parseStrBody.eq_def]
                  simp [unescapeChar, ih rest]
                · by_cases h8 : c.toNat < 32
                  · have hesc : escapeChar c =
                        ['\\', 'u', '0', '0', hexDigit (c.toNat / 16),
                          hexDigit (c.toNat % 16)] := by
                      unfold escapeChar
                      rw [if_neg h1, if_neg h2, if_neg h3, if_neg h4, if_neg h5,
                        if_neg h6, if_neg h7, if_pos h8]
                    rw [hesc]
                    show parseStrBody ('\\' :: 'u' :: '0' :: '0' ::
                      hexDigit (c.toNat / 16) :: hexDigit (c.toNat % 16) ::
                      (escAll cs ++ '"' :: rest)) = some (c :: cs, rest)
                    rw [parseStrBody.eq_def]
                    simp [hex4_control c h8, ih rest, Char.ofNat_toNat]
                  · have hesc : escapeChar c = [c] := by
                      unfold escapeChar
                      rw [if_neg h1, if_neg h2, if_neg h3, if_neg h4, if_neg h5,
                        if_neg h6, if_neg h7, if_neg h8]
                    rw [hesc]
                    show parseStrBody (c :: (escAll cs ++ '"' :: rest)) =
                      some (c :: cs, rest)
                    rw [parseStrBody.eq_def]
                    simp [h1, h2, h8, ih rest]

/-- A rendered record followed by anything parses back to the record. -/
lemma parseRecord_render (r : ChunkRecord) (rest : List Char) :
    parseRecord (renderRecord r ++ rest) = some (r, rest) := by
  have hshape : renderRecord r ++ rest =
      litRecA ++ '"' :: (escAll r.text ++ '"' ::
        (litRecB ++ '"' :: (escAll r.metadata.source ++ '"' ::
          (litRecC ++ '"' :: (escAll r.metadata.category ++ '"' ::
            (litRecD ++ rest)))))) := by
    simp [renderRecord, renderString, List.append_assoc]
  rw [hshape]
  simp only [parseRecord, expectLit_quote, parseStrBody_escAll, expectLit_append]

/-- The rendered form of a record is nonempty. -/
lemma renderRecord_pos (r : ChunkRecord) : 0 < (renderRecord r).length := by
  unfold renderRecord
  simp only [List.length_append]
  have h : 0 < litRecA.length := by decide
  omega

/-- The rendered tail of a nonempty list is nonempty. -/
lemma dumpTail_pos (r : ChunkRecord) (rs : List ChunkRecord) :
    0 < (dumpTail (r :: rs)).length := by
  show 0 < (renderRecord r ++ _).length
  simp only [List.length_append]
  have := renderRecord_pos r
  omega

/-- Parsing the rendered tail recovers the remaining records. -/
lemma parseRecordsGo_dumpTail :
    ∀ (rs : List ChunkRecord), rs ≠ [] → ∀ n, (dumpTail rs).length ≤ n →
      parseRecordsGo n (dumpTail rs) = some rs := by
  intro rs
  induction rs with
  | nil =>
    intro h
    exact absurd rfl h
  | cons r rs ih =>
    intro _ n hn
    cases n with
    | zero =>
      have := dumpTail_pos r rs
      omega
    | succ n =>
      cases rs with
      | nil =>
        have h1 : expectLit "\n]".data "\n]".data = some [] := rfl
        rw [show dumpTail [r] = renderRecord r ++ "\n]".data from rfl,
          parseRecordsGo.eq_def]
        simp only [parseRecord_render r ("\n]".data), h1, List.isEmpty_nil, if_true]
      | cons r2 rs2 =>
        have hnotend : expectLit "\n]".data (",\n".data ++ dumpTail (r2 :: rs2)) = none := by
          unfold expectLit
          rw [if_neg]
          intro hp
          rw [show ",\n".data ++ dumpTail (r2 :: rs2) =
            ',' :: ('\n' :: dumpTail (r2 :: rs2)) from rfl] at hp
          rw [show ("\n]".data : List Char) = '\n' :: [']'] from rfl,
            List.cons_prefix_cons] at hp
          exact absurd hp.1 (by decide)
        have hfuel : (dumpTail (r2 :: rs2)).length ≤ n := by
          rw [show dumpTail (r :: r2 :: rs2) =
            renderRecord r ++ (",\n".data ++ dumpTail (r2 :: rs2)) from rfl] at hn
          have h1 := renderRecord_pos r
          simp only [List.length_append] at hn
          have h2 : (",\n".data : List Char).length = 2 := by decide
          omega
        rw [show dumpTail (r :: r2 :: rs2) =
          renderRecord r ++ (",\n".data ++ dumpTail (r2 :: rs2)) from rfl,
          parseRecordsGo.eq_def]
        simp only [parseRecord_render r (",\n".data ++ dumpTail (r2 :: rs2)), hnotend,
          expectLit_append (",\n".data) (dumpTail (r2 :: rs2)), ih (by simp) n hfuel]

/-! ### Indexer (`indexing.py`)

The embedding model is abstracted as a function `encode` from a batch of
texts to a list of embeddings of type `E`.  File system and JSON loading are
summarised by a `LoadResult` (the three outcomes of the `try` around
`json.load`), and the ChromaDB insertion loop by an optional failure index:
`some k` means the `k`-th `chroma_collection.add` call raises
`chromadb.errors.ChromaDBException` (an index beyond the loop means no
failure occurs).  The log records the `print` calls that matter to control
flow; the per-batch progress prints are omitted. -/

/-- One document entry as loaded from a category JSON file: the values of the
optional `"text"` and `"metadata"` keys. -/
structure RawDoc where
  text : Option (List Char)
  metadata : Option (List (List Char × List Char))
  deriving DecidableEq

/-- Outcome of loading `../documents/{index_name}.json`. -/
inductive LoadResult where
  | notFound
  | badJson
  | ok (docs : List RawDoc)
  deriving DecidableEq

/-- Log messages printed by `indexing`. -/
inductive LogMsg where
  | processing
  | numDocs (n : Nat)
  | totalEmb (n : Nat)
  | errNotFound
  | errDecode
  | storing
  | errChroma
  | success
  deriving DecidableEq

/-- Whether `indexing` returns normally or lets an exception escape. -/
inductive Outcome where
  | returned
  | raised
  deriving DecidableEq

/-- Observable result of one `indexing` call: the log, the records added to
the collection, and whether an exception escaped. -/
structure IndexRun (E : Type) where
  log : List LogMsg
  added : List (List Char × List (List Char × List Char) × E)
  outcome : Outcome

/-- `texts = [doc.get("text", "") for doc in docs]`. -/
def extractTexts (docs : List RawDoc) : List (List Char) :=
  docs.map fun d => d.text.getD []

/-- `metadatas = [doc.get("metadata", {}) for doc in docs]`. -/
def extractMetadatas (docs : List RawDoc) : List (List (List Char × List Char)) :=
  docs.map fun d => d.metadata.getD []

/-- Fuelled batching loop `for i in range(0, len(texts), 200)`: encode
`texts[i : i + 200]` and extend the accumulated embeddings.  One unit of fuel
covers at least one consumed text, so fuel `texts.length` suffices. -/
def batchedEncodeGo {E : Type} (encode : List (List Char) → List E) :
    Nat → List (List Char) → List E
  | _, [] => []
  | 0, _ => []
  | n + 1, t :: ts =>
    encode ((t :: ts).take 200) ++ batchedEncodeGo encode n ((t :: ts).drop 200)

/-- The batched embedding computation of `indexing`. -/
def batchedEncode {E : Type} (encode : List (List Char) → List E)
    (texts : List (List Char)) : List E :=
  batchedEncodeGo encode texts.length texts

/-- The per-category `indexing` procedure.  Successful loading extracts the
texts and metadata lists, computes the embeddings in batches of 200, then
inserts `(text, metadata, embedding)` triples one at a time; a
`ChromaDBException` at insertion `k` is caught: the error is logged and the
function returns normally with only the first `k` records inserted. -/
def indexing (E : Type) (encode : List (List Char) → List E)
    (load : LoadResult) (chromaFailAt : Option Nat) : IndexRun E :=
  match load with
  | .notFound => ⟨[.processing, .errNotFound], [], .returned⟩
  | .badJson => ⟨[.processing, .errDecode], [], .returned⟩
  | .ok docs =>
    let texts := extractTexts docs
    let metadatas := extractMetadatas docs
    let embeddings := batchedEncode encode texts
    let triples := texts.zip (metadatas.zip embeddings)
    match chromaFailAt with
    | some k =>
      if k < triples.length then
        ⟨[.processing, .numDocs docs.length, .totalEmb embeddings.length,
            .storing, .errChroma],
          (triples.take k).map (fun t => (t.1, t.2.1, t.2.2)), .returned⟩
      else
        ⟨[.processing, .numDocs docs.length, .totalEmb embeddings.length,
            .storing, .success],
          triples.map (fun t => (t.1, t.2.1, t.2.2)), .returned⟩
    | none =>
      ⟨[.processing, .numDocs docs.length, .totalEmb embeddings.length,
          .storing, .success],
        triples.map (fun t => (t.1, t.2.1, t.2.2)), .returned⟩

/-- The batching loop yields one embedding per input text, provided the
encoder yields one embedding per text of each batch. -/
lemma batchedEncodeGo_length {E : Type} (encode : List (List Char) → List E)
    (henc : ∀ b, (encode b).length = b.length) :
    ∀ n texts, texts.length ≤ n →
      (batchedEncodeGo encode n texts).length = texts.length := by
  intro n
  induction n with
  | zero =>
    intro texts hn
    cases texts with
    | nil => rfl
    | cons t ts => simp at hn
  | succ n ih =>
    intro texts hn
    cases texts with
    | nil => rfl
    | cons t ts =>
      show (encode ((t :: ts).take 200) ++
        batchedEncodeGo encode n ((t :: ts).drop 200)).length = (t :: ts).length
      rw [List.length_append, henc, ih ((t :: ts).drop 200) (by simp at hn ⊢; omega)]
      simp only [List.length_take, List.length_drop]
      simp at hn ⊢
      omega

/-! ### Query/answer generator (`llm_generate.py`)

The external capabilities (query embedding, the filtered ChromaDB similarity
search, the cross-encoder rerank, and the Ollama chat call) are abstracted as
the fields of a `Pipeline`; each returns `Except GenErr` because any of them
may raise.  The module-level question loop itself contains no `try`, so
`processQuestion` simply propagates the first error, `processQuestions` stops
at the first failing question, and `llmGenerate` performs the single
`json.dump` only when every question succeeded — its first component is the
list of file writes performed. -/

/-- A question of `questions_example.json`. -/
structure Question where
  qid : Nat
  query : List Char
  source : List (List Char)
  category : List Char
  deriving DecidableEq

/-- An entry of `final_pred["answers"]`.  The four `Document` fields hold
what the code computes for them: `contexts[i]`, a one-character string. -/
structure AnswerRecord where
  qid : Nat
  Document1 : List Char
  Document2 : List Char
  Document3 : List Char
  Document4 : List Char
  generate : List Char
  deriving DecidableEq

/-- Failure modes of one pass through the question loop. -/
inductive GenErr where
  | embedFail
  | dbFail
  | rerankFail
  | chatFail
  | indexErr
  deriving DecidableEq

/-- The abstracted external services invoked by the loop. -/
structure Pipeline (E : Type) where
  embed : List Char → Except GenErr E
  retrieve : E → List Char → List (List Char) → Except GenErr (List (List Char))
  rerank : List Char → List (List Char) → Except GenErr (List (List Char))
  chat : List Char → Except GenErr (List Char)

/-- The fixed chat template, `template.format(context_str=…, query_str=…)`. -/
def templateFormat (ctx query : List Char) : List Char :=
  "\nContext information is below.\n---------------------\n".data ++ ctx ++
  "\n---------------------\nGiven the context information and not prior knowledge, answer the query.\nQuery: ".data ++
  query ++ "\nAnswer:\n".data

/-- Building the answer dict: `contexts[0] … contexts[3]` index the joined
context string, raising `IndexError` when it is shorter than four characters;
Python string indexing yields a one-character string. -/
def buildAnswer (qid : Nat) (contexts gen : List Char) : Except GenErr AnswerRecord :=
  if h : 4 ≤ contexts.length then
    .ok
      { qid := qid
        Document1 := [contexts.get ⟨0, by omega⟩]
        Document2 := [contexts.get ⟨1, by omega⟩]
        Document3 := [contexts.get ⟨2, by omega⟩]
        Document4 := [contexts.get ⟨3, by omega⟩]
        generate := gen }
  else
    .error .indexErr

/-- One pass of the question loop: embed the query, retrieve at most 30
filtered candidates, rerank to the top 4, join their texts with blank lines,
call the chat model on the filled template, then build the answer record. -/
def processQuestion {E : Type} (P : Pipeline E) (q : Question) :
    Except GenErr AnswerRecord :=
  match P.embed q.query with
  | .error e => .error e
  | .ok emb =>
    match P.retrieve emb q.category q.source with
    | .error e => .error e
    | .ok docs =>
      match P.rerank q.query docs with
      | .error e => .error e
      | .ok ranked =>
        let contexts := List.intercalate nn ranked
        match P.chat (templateFormat contexts q.query) with
        | .error e => .error e
        | .ok resp => buildAnswer q.qid contexts resp

/-- The whole question loop, accumulating answer records in order and
stopping at the first failure. -/
def processQuestions {E : Type} (P : Pipeline E) :
    List Question → Except GenErr (List AnswerRecord)
  | [] => .ok []
  | q :: qs =>
    match processQuestion P q with
    | .error e => .error e
    | .ok a =>
      match processQuestions P qs with
      | .error e => .error e
      | .ok as => .ok (a :: as)

/-- The full run: the first component lists the writes of
`../final_pred.json` performed (each holding the dumped answer list), the
second the uncaught exception, if any, that terminated the run. -/
def llmGenerate {E : Type} (P : Pipeline E) (questions : List Question) :
    List (List AnswerRecord) × Option GenErr :=
  match processQuestions P questions with
  | .ok answers => ([answers], none)
  | .error e => ([], some e)

/-! ### Chunk routing invariants -/

/-- The texts list of the routing fold never acquires an entry containing
both `|` and `-`. -/
lemma route_texts_inv :
    ∀ (cs : List (List Char)) (acc : List (List Char) × List (List Char)),
      (∀ x ∈ acc.1, ¬ ('|' ∈ x ∧ '-' ∈ x)) →
      ∀ x ∈ (cs.foldl routeChunk acc).1, ¬ ('|' ∈ x ∧ '-' ∈ x) := by
  intro cs
  induction cs with
  | nil =>
    intro acc hacc
    exact hacc
  | cons ch cs ih =>
    intro acc hacc
    simp only [List.foldl_cons]
    refine ih (routeChunk acc ch) ?_
    intro x hx
    unfold routeChunk at hx
    by_cases hc : pyStrip ch = []
    · rw [if_pos hc] at hx
      exact hacc x hx
    · rw [if_neg hc] at hx
      by_cases hb : '|' ∈ pyStrip ch ∧ '-' ∈ pyStrip ch
      · rw [if_pos hb] at hx
        exact hacc x hx
      · rw [if_neg hb] at hx
        rcases List.mem_append.mp hx with hx | hx
        · exact hacc x hx
        · rw [List.mem_singleton.mp hx]
          exact hb

/-- The tables list of the routing fold only grows. -/
lemma route_tables_mono :
    ∀ (cs : List (List Char)) (acc : List (List Char) × List (List Char)) (x : List Char),
      x ∈ acc.2 → x ∈ (cs.foldl routeChunk acc).2 := by
  intro cs
  induction cs with
  | nil =>
    intro acc x hx
    exact hx
  | cons ch cs ih =>
    intro acc x hx
    simp only [List.foldl_cons]
    refine ih (routeChunk acc ch) x ?_
    unfold routeChunk
    by_cases hc : pyStrip ch = []
    · rw [if_pos hc]
      exact hx
    · rw [if_neg hc]
      by_cases hb : '|' ∈ pyStrip ch ∧ '-' ∈ pyStrip ch
      · rw [if_pos hb]
        exact List.mem_append.mpr (Or.inl hx)
      · rw [if_neg hb]
        exact hx

/-- The texts list of the whole classification never acquires an entry
containing both `|` and `-`. -/
lemma classify_texts_inv :
    ∀ (contents : List (List Char)) (acc : List (List Char) × List (List Char)),
      (∀ x ∈ acc.1, ¬ ('|' ∈ x ∧ '-' ∈ x)) →
      ∀ x ∈ (contents.foldl
        (fun acc content => (pySplit nn content).foldl routeChunk acc) acc).1,
        ¬ ('|' ∈ x ∧ '-' ∈ x) := by
  intro contents
  induction contents with
  | nil =>
    intro acc hacc
    exact hacc
  | cons content contents ih =>
    intro acc hacc
    simp only [List.foldl_cons]
    exact ih _ (route_texts_inv (pySplit nn content) acc hacc)

/-- The tables list of the whole classification only grows. -/
lemma classify_tables_mono :
    ∀ (contents : List (List Char)) (acc : List (List Char) × List (List Char))
      (x : List Char), x ∈ acc.2 →
      x ∈ (contents.foldl
        (fun acc content => (pySplit nn content).foldl routeChunk acc) acc).2 := by
  intro contents
  induction contents with
  | nil =>
    intro acc x hx
    exact hx
  | cons content contents ih =>
    intro acc x hx
    simp only [List.foldl_cons]
    exact ih _ x (route_tables_mono (pySplit nn content) acc x hx)

/-- C3: in the finance builder, every nonempty stripped chunk that contains
both `|` and `-` is routed to the tables list and never to the texts list. -/
theorem finance_table_routing (contents : List (List Char))
    (content ch : List Char) (hc : content ∈ contents)
    (hch : ch ∈ pySplit nn content) (hne : pyStrip ch ≠ [])
    (hp : '|' ∈ pyStrip ch) (hm : '-' ∈ pyStrip ch) :
    pyStrip ch ∈ (classifyChunks contents).2 ∧
      pyStrip ch ∉ (classifyChunks contents).1 := by
  have hnot : ∀ x ∈ (classifyChunks contents).1, ¬ ('|' ∈ x ∧ '-' ∈ x) := by
    unfold classifyChunks
    exact classify_texts_inv contents ([], []) (by simp)
  have htab : pyStrip ch ∈ (classifyChunks contents).2 := by
    unfold classifyChunks
    obtain ⟨l1, l2, hcont⟩ := List.append_of_mem hc
    obtain ⟨m1, m2, hchlist⟩ := List.append_of_mem hch
    rw [hcont, List.foldl_append]
    simp only [List.foldl_cons]
    apply classify_tables_mono l2
    rw [hchlist, List.foldl_append]
    simp only [List.foldl_cons]
    apply route_tables_mono m2
    simp only [routeChunk]
    rw [if_neg hne,
      if_pos (show '|' ∈ pyStrip ch ∧ '-' ∈ pyStrip ch from ⟨hp, hm⟩)]
    exact List.mem_append.mpr (Or.inr (List.mem_singleton.mpr rfl))
  exact ⟨htab, fun hmem => hnot _ hmem ⟨hp, hm⟩⟩

/-- Witness for the table-routing theorem at a concrete chunk. -/
theorem finance_table_routing_w :
    pyStrip "|a-".data ∈ (classifyChunks ["|a-".data]).2 ∧
      pyStrip "|a-".data ∉ (classifyChunks ["|a-".data]).1 :=
  finance_table_routing ["|a-".data] "|a-".data "|a-".data (by decide) (by decide)
    (by decide) (by decide) (by decide)

/-- Unfolded form of `build_finance_file`. -/
lemma build_finance_file_eq (name content : List Char) :
    build_finance_file name content =
      ((classifyChunks (((pySplit sepTok content).drop 1).map pyStrip)).1.map
        fun t => ⟨pyStrip ((pySplit sepTok content).headD []) ++ '\n' :: t,
          ⟨financeSource name, "finance".data⟩⟩) ++
      ((classifyChunks (((pySplit sepTok content).drop 1).map pyStrip)).2.map
        fun t => ⟨pyStrip ((pySplit sepTok content).headD []) ++ '\n' :: t,
          ⟨financeSource name, "finance".data⟩⟩) := rfl

/-- Splitting an occurrence-free string yields that single part. -/
lemma pySplit_noOcc {sep s : List Char} (h : occursIn sep s = false) :
    pySplit sep s = [s] := by
  unfold pySplit
  rw [splitGo_noOcc s.length s [] (le_refl _) h]
  simp

/-- C7: a finance markdown file made of a header, the `[sep]` delimiter, and
two chunks separated by one blank line — a table-like chunk and a prose
chunk — produces exactly two records, each of whose texts starts with the
header followed by a newline. -/
theorem finance_smoke_two_records (name header c1 c2 : List Char)
    (hh : pyStrip header = header)
    (h1s : pyStrip c1 = c1) (h1n : c1 ≠ [])
    (h2s : pyStrip c2 = c2) (h2n : c2 ≠ [])
    (h1p : '|' ∈ c1) (h1m : '-' ∈ c1)
    (h2p : '|' ∉ c2) (h2m : '-' ∉ c2)
    (hs1 : occursIn sepTok header = false)
    (hs2 : occursIn sepTok (c1 ++ nn ++ c2) = false)
    (hn1 : occursIn nn c1 = false) (hn2 : occursIn nn c2 = false) :
    (build_finance_file name (header ++ sepTok ++ (c1 ++ nn ++ c2))).length = 2 ∧
      ∀ r ∈ build_finance_file name (header ++ sepTok ++ (c1 ++ nn ++ c2)),
        (header ++ ['\n']) <+: r.text := by
  have hsplit1 : pySplit sepTok (header ++ sepTok ++ (c1 ++ nn ++ c2)) =
      [header, c1 ++ nn ++ c2] := by
    rw [pySplit_sepTok header (c1 ++ nn ++ c2) hs1, pySplit_noOcc hs2]
  have hbodyfix : pyStrip (c1 ++ nn ++ c2) = c1 ++ nn ++ c2 := by
    apply pyStrip_fix
    · intro c hcc
      have hh1 : (c1 ++ nn ++ c2).head? = c1.head? := by
        cases c1 with
        | nil => exact absurd rfl h1n
        | cons a t => rfl
      exact fix_head h1s (by rw [← hh1]; exact hcc)
    · intro c hcc
      have hl1 : (c1 ++ nn ++ c2).getLast? = c2.getLast? :=
        List.getLast?_append_of_ne_nil _ h2n
      exact fix_last h2s (by rw [← hl1]; exact hcc)
  have hc1last : c1.getLast? ≠ some '\n' := by
    intro hlast
    have hws := fix_last h1s hlast
    simp [isPySpace] at hws
  have hsplit2 : pySplit nn (c1 ++ nn ++ c2) = [c1, c2] := by
    rw [pySplit_nn c1 c2 hn1 hc1last, pySplit_noOcc hn2]
  have hclass : classifyChunks [c1 ++ nn ++ c2] = ([c2], [c1]) := by
    unfold classifyChunks
    simp only [List.foldl_cons, List.foldl_nil]
    rw [hsplit2]
    simp only [List.foldl_cons, List.foldl_nil]
    rw [show routeChunk ([], []) c1 = ([], [c1]) from by
      simp only [routeChunk]
      rw [h1s, if_neg h1n,
        if_pos (show '|' ∈ c1 ∧ '-' ∈ c1 from ⟨h1p, h1m⟩)]
      rfl]
    rw [show routeChunk ([], [c1]) c2 = ([c2], [c1]) from by
      simp only [routeChunk]
      rw [h2s, if_neg h2n, if_neg (show ¬ ('|' ∈ c2 ∧ '-' ∈ c2) from
        fun hb => h2p hb.1)]
      rfl]
  rw [build_finance_file_eq, hsplit1]
  simp only [List.headD_cons, List.drop_succ_cons, List.drop_zero, List.map_cons,
    List.map_nil]
  rw [hh, hbodyfix, hclass]
  refine ⟨by simp, ?_⟩
  intro r hr
  simp only [List.map_cons, List.map_nil, List.cons_append, List.nil_append,
    List.mem_cons, List.not_mem_nil, or_false] at hr
  rcases hr with rfl | rfl
  · exact ⟨c2, by simp⟩
  · exact ⟨c1, by simp⟩

/-- Witness for the smoke scenario at a concrete file. -/
theorem finance_smoke_two_records_w :
    (build_finance_file "f_1.md".data
        ("HD".data ++ sepTok ++ ("|a-".data ++ nn ++ "bc".data))).length = 2 ∧
      ("HD".data ++ ['\n']) <+:
        ((build_finance_file "f_1.md".data
          ("HD".data ++ sepTok ++ ("|a-".data ++ nn ++ "bc".data))).headD
            ⟨[], ⟨[], []⟩⟩).text := by
  have h := finance_smoke_two_records "f_1.md".data "HD".data "|a-".data "bc".data
    (by decide) (by decide) (by decide) (by decide) (by decide) (by decide)
    (by decide) (by decide) (by decide) (by decide) (by decide) (by decide)
    (by decide)
  exact ⟨h.1, h.2 _ (by decide)⟩

/-- Finance records carry the finance category and a nonempty text. -/
lemma mem_build_finance_file {name content : List Char} {r : ChunkRecord}
    (h : r ∈ build_finance_file name content) :
    r.metadata.category = "finance".data ∧ r.text ≠ [] := by
  rw [build_finance_file_eq] at h
  rcases List.mem_append.mp h with h | h
  · rcases List.mem_map.mp h with ⟨t, _, rfl⟩
    exact ⟨rfl, by simp⟩
  · rcases List.mem_map.mp h with ⟨t, _, rfl⟩
    exact ⟨rfl, by simp⟩

/-- Insurance records carry the insurance category and a text drawn from the
blank-line split of the cleaned file. -/
lemma mem_build_insurance_file {folder content : List Char} {r : ChunkRecord}
    (h : r ∈ build_insurance_file folder content) :
    r.metadata.category = "insurance".data ∧
      r.text ∈ pySplit nn (clean_insurance content) := by
  unfold build_insurance_file at h
  rcases List.mem_map.mp h with ⟨t, ht, rfl⟩
  exact ⟨rfl, ht⟩

/-- When the cleaned insurance text is nonempty, every part of its blank-line
split is nonempty. -/
lemma insurance_parts_nonempty {content : List Char}
    (h : clean_insurance content ≠ []) :
    ∀ p ∈ pySplit nn (clean_insurance content), p ≠ [] := by
  refine pySplit_nn_parts h ?_ ?_ (clean_insurance_no3 content)
  · intro hhd
    have h2 := pyStrip_head
      (s := compressNewlines (removeImages (removeTitles content))) hhd
    simp [isPySpace] at h2
  · intro hlast
    have h2 := pyStrip_last
      (s := compressNewlines (removeImages (removeTitles content))) hlast
    simp [isPySpace] at h2

/-- C2 counterexample: an insurance markdown file consisting of a single
markdown title cleans to the empty string, and the builder then emits one
record whose `text` is empty, violating the claimed nonemptiness. -/
theorem insurance_empty_text_cex :
    build_insurance_json [("1".data, [("a.md".data, "# Title".data)])] =
      [⟨[], ⟨"1".data, "insurance".data⟩⟩] := by
  decide

/-- C2 (amended): every record of the three builders carries one of the three
known categories; finance and FAQ texts are always nonempty, and insurance
texts are nonempty except when the cleaned file content is empty (in which
case the builder emits a single empty-text record for that file). -/
theorem builder_category_and_text (ffiles : List (List Char × List Char))
    (idirs : List (List Char × List (List Char × List Char)))
    (fdata : List (List Char × List QA)) :
    (∀ r ∈ build_finance_json ffiles,
      r.metadata.category ∈ ["finance".data, "insurance".data, "faq".data] ∧
        r.text ≠ []) ∧
    (∀ r ∈ build_faq_json fdata,
      r.metadata.category ∈ ["finance".data, "insurance".data, "faq".data] ∧
        r.text ≠ []) ∧
    (∀ r ∈ build_insurance_json idirs,
      r.metadata.category ∈ ["finance".data, "insurance".data, "faq".data]) ∧
    (∀ folder content, clean_insurance content ≠ [] →
      ∀ r ∈ build_insurance_file folder content, r.text ≠ []) := by
  refine ⟨?_, ?_, ?_, ?_⟩
  · intro r hr
    obtain ⟨f, _, hrf⟩ := mem_build_finance hr
    obtain ⟨hcat, hne⟩ := mem_build_finance_file hrf
    exact ⟨by rw [hcat]; simp, hne⟩
  · intro r hr
    obtain ⟨sq, _, qa, _, rfl⟩ := mem_build_faq hr
    refine ⟨by simp, ?_⟩
    show faqText qa ≠ []
    unfold faqText
    simp
  · intro r hr
    obtain ⟨d, _, f, _, _, hrf⟩ := mem_build_insurance hr
    obtain ⟨hcat, _⟩ := mem_build_insurance_file hrf
    rw [hcat]
    simp
  · intro folder content hcl r hr
    obtain ⟨_, htext⟩ := mem_build_insurance_file hr
    exact insurance_parts_nonempty hcl r.text htext

/-- Witness for the amended builder theorem at a concrete finance input. -/
theorem builder_category_and_text_w :
    (⟨"H\nx".data, ⟨"a".data, "finance".data⟩⟩ : ChunkRecord).metadata.category ∈
        ["finance".data, "insurance".data, "faq".data] ∧
      (⟨"H\nx".data, ⟨"a".data, "finance".data⟩⟩ : ChunkRecord).text ≠ [] :=
  (builder_category_and_text [("a_1.md".data, "H[sep]x".data)] [] []).1
    ⟨"H\nx".data, ⟨"a".data, "finance".data⟩⟩ (by decide)

/-- C4: the number of embeddings accumulated by the batched encoding loop
(batch size 200) equals the number of input texts, assuming the encoder
returns one embedding per text in each batch. -/
theorem indexer_embedding_count {E : Type} (encode : List (List Char) → List E)
    (texts : List (List Char)) (henc : ∀ b, (encode b).length = b.length) :
    (batchedEncode encode texts).length = texts.length :=
  batchedEncodeGo_length encode henc texts.length texts (le_refl _)

/-- Witness for the embedding-count theorem on 201 texts (two batches). -/
theorem indexer_embedding_count_w :
    (batchedEncode (fun b => b) (List.replicate 201 "x".data)).length = 201 :=
  indexer_embedding_count (fun b => b) (List.replicate 201 "x".data)
    (fun _ => rfl)

/-- C5 counterexample: a `ChromaDBException` raised by the very first
insertion is caught — `indexing` returns normally with the error logged and
nothing inserted, rather than letting the exception escape as claimed. -/
theorem chroma_error_not_propagated_cex :
    (indexing Unit (fun ts => ts.map fun _ => ())
        (.ok [⟨some "t".data, some []⟩]) (some 0)).outcome = Outcome.returned ∧
      (indexing Unit (fun ts => ts.map fun _ => ())
        (.ok [⟨some "t".data, some []⟩]) (some 0)).outcome ≠ Outcome.raised ∧
      LogMsg.errChroma ∈ (indexing Unit (fun ts => ts.map fun _ => ())
        (.ok [⟨some "t".data, some []⟩]) (some 0)).log ∧
      (indexing Unit (fun ts => ts.map fun _ => ())
        (.ok [⟨some "t".data, some []⟩]) (some 0)).added = [] := by
  decide


/-- Length of the `(text, metadata, embedding)` triple list built by a
successful load. -/
lemma indexing_triples_length {E : Type} (encode : List (List Char) → List E)
    (henc : ∀ b, (encode b).length = b.length) (docs : List RawDoc) :
    ((extractTexts docs).zip
      ((extractMetadatas docs).zip (batchedEncode encode (extractTexts docs)))).length =
      docs.length := by
  have hlen : (extractTexts docs).length = docs.length := by
    simp [extractTexts]
  have hlen2 : (extractMetadatas docs).length = docs.length := by
    simp [extractMetadatas]
  have hlen3 : (batchedEncode encode (extractTexts docs)).length = docs.length := by
    rw [show batchedEncode encode (extractTexts docs) =
      batchedEncodeGo encode (extractTexts docs).length (extractTexts docs) from rfl]
    rw [batchedEncodeGo_length encode henc _ _ (le_refl _), hlen]
  rw [List.length_zip, List.length_zip, hlen, hlen2, hlen3]
  simp

/-- Unfolded form of a successful-load `indexing` run with a failing
insertion index. -/
lemma indexing_ok_eq {E : Type} (encode : List (List Char) → List E)
    (docs : List RawDoc) (k : Nat)
    (hk : k < ((extractTexts docs).zip
      ((extractMetadatas docs).zip
        (batchedEncode encode (extractTexts docs)))).length) :
    indexing E encode (.ok docs) (some k) =
      ⟨[.processing, .numDocs docs.length,
          .totalEmb (batchedEncode encode (extractTexts docs)).length,
          .storing, .errChroma],
        (((extractTexts docs).zip
          ((extractMetadatas docs).zip
            (batchedEncode encode (extractTexts docs)))).take k).map
          (fun t => (t.1, t.2.1, t.2.2)),
        .returned⟩ := by
  simp only [indexing]
  rw [if_pos hk]

/-- C5 (amended): the indexer catches a missing file and a JSON decode error
per category, logging and returning with the collection untouched; and a
`ChromaDBException` raised during insertion is likewise caught after being
logged — the function returns normally with exactly the records inserted
before the failure, and the exception does not propagate. -/
theorem indexer_error_handling (E : Type) (encode : List (List Char) → List E)
    (henc : ∀ b, (encode b).length = b.length) (docs : List RawDoc) (k : Nat)
    (hk : k < docs.length) (c : Option Nat) :
    indexing E encode .notFound c = ⟨[.processing, .errNotFound], [], .returned⟩ ∧
    indexing E encode .badJson c = ⟨[.processing, .errDecode], [], .returned⟩ ∧
    (indexing E encode (.ok docs) (some k)).outcome = .returned ∧
    .errChroma ∈ (indexing E encode (.ok docs) (some k)).log ∧
    .success ∉ (indexing E encode (.ok docs) (some k)).log ∧
    (indexing E encode (.ok docs) (some k)).added.length = k := by
  have htrip := indexing_triples_length encode henc docs
  have hk' : k < ((extractTexts docs).zip
      ((extractMetadatas docs).zip
        (batchedEncode encode (extractTexts docs)))).length := by
    rw [htrip]
    exact hk
  rw [indexing_ok_eq encode docs k hk']
  refine ⟨rfl, rfl, rfl, by simp, by simp, ?_⟩
  rw [List.length_map, List.length_take, htrip]
  simp
  omega

/-- Witness for the amended error-handling theorem at a concrete run. -/
theorem indexer_error_handling_w :
    LogMsg.errChroma ∈ (indexing Unit (fun ts => ts.map fun _ => ())
      (.ok [⟨some "t".data, some []⟩]) (some 0)).log :=
  (indexer_error_handling Unit (fun ts => ts.map fun _ => ())
    (fun b => List.length_map b _) [⟨some "t".data, some []⟩] 0 (by decide)
    none).2.2.2.1

/-- Unfolded form of a successful-load `indexing` run with no insertion
failure. -/
lemma indexing_ok_none_eq {E : Type} (encode : List (List Char) → List E)
    (docs : List RawDoc) :
    indexing E encode (.ok docs) none =
      ⟨[.processing, .numDocs docs.length,
          .totalEmb (batchedEncode encode (extractTexts docs)).length,
          .storing, .success],
        ((extractTexts docs).zip
          ((extractMetadatas docs).zip
            (batchedEncode encode (extractTexts docs)))).map
          (fun t => (t.1, t.2.1, t.2.2)),
        .returned⟩ := by
  simp only [indexing]

/-- C10: entries lacking a `"text"` or `"metadata"` key are still indexed,
with the empty string and the empty mapping as defaults — one record is
inserted per loaded entry and its text and metadata are exactly the defaulted
values. -/
theorem indexer_missing_keys_defaults (E : Type)
    (encode : List (List Char) → List E)
    (henc : ∀ b, (encode b).length = b.length) (docs : List RawDoc) :
    (indexing E encode (.ok docs) none).added.length = docs.length ∧
    ∀ (i : Nat) (d : RawDoc), docs[i]? = some d →
      ∃ e, (indexing E encode (.ok docs) none).added[i]? =
        some (d.text.getD [], d.metadata.getD [], e) := by
  have htrip := indexing_triples_length encode henc docs
  rw [indexing_ok_none_eq encode docs]
  constructor
  · rw [List.length_map, htrip]
  · intro i d hd
    have hi : i < docs.length := by
      by_contra hlt
      rw [List.getElem?_eq_none (by omega)] at hd
      cases hd
    have htext : (extractTexts docs)[i]? = some (d.text.getD []) := by
      unfold extractTexts
      rw [List.getElem?_map, hd]
      rfl
    have hmet : (extractMetadatas docs)[i]? = some (d.metadata.getD []) := by
      unfold extractMetadatas
      rw [List.getElem?_map, hd]
      rfl
    have hemb : ∃ e, (batchedEncode encode (extractTexts docs))[i]? = some e := by
      have hlen3 : (batchedEncode encode (extractTexts docs)).length = docs.length := by
        rw [show batchedEncode encode (extractTexts docs) =
          batchedEncodeGo encode (extractTexts docs).length (extractTexts docs) from rfl]
        rw [batchedEncodeGo_length encode henc _ _ (le_refl _)]
        simp [extractTexts]
      refine ⟨(batchedEncode encode (extractTexts docs)).get ⟨i, by omega⟩, ?_⟩
      rw [List.get_eq_getElem]
      exact List.getElem?_eq_getElem (by omega)
    obtain ⟨e, he⟩ := hemb
    refine ⟨e, ?_⟩
    have hz : ((extractMetadatas docs).zip
        (batchedEncode encode (extractTexts docs)))[i]? =
        some (d.metadata.getD [], e) :=
      List.getElem?_zip_eq_some.mpr ⟨hmet, he⟩
    have hz2 : ((extractTexts docs).zip
        ((extractMetadatas docs).zip
          (batchedEncode encode (extractTexts docs))))[i]? =
        some (d.text.getD [], (d.metadata.getD [], e)) :=
      List.getElem?_zip_eq_some.mpr ⟨htext, hz⟩
    rw [List.getElem?_map, hz2]
    rfl

/-- Witness for the defaulting theorem at an entry missing both keys. -/
theorem indexer_missing_keys_defaults_w :
    ∃ e, (indexing Unit (fun ts => ts.map fun _ => ())
        (.ok [⟨none, none⟩]) none).added[0]? =
      some (([] : List Char), ([] : List (List Char × List Char)), e) :=
  (indexer_missing_keys_defaults Unit (fun ts => ts.map fun _ => ())
    (fun b => List.length_map b _) [⟨none, none⟩]).2 0 ⟨none, none⟩ rfl

/-! ### Generator claims -/

/-- Four documents for concrete generator runs. -/
def docsAlpha : List (List Char) :=
  ["alpha".data, "beta".data, "gamma".data, "delta".data]

/-- A pipeline whose retrieval and rerank return `docsAlpha` and whose chat
model answers `"ans"`. -/
def pipeAlpha : Pipeline Unit :=
  { embed := fun _ => .ok ()
    retrieve := fun _ _ _ => .ok docsAlpha
    rerank := fun _ _ => .ok docsAlpha
    chat := fun _ => .ok "ans".data }

/-- A concrete question. -/
def qAlpha : Question := ⟨7, "q".data, [], "finance".data⟩

/-- The answer record the code computes for `qAlpha` under `pipeAlpha`: the
four `Document` fields hold the first four characters of
`"alpha\n\nbeta\n\ngamma\n\ndelta"`. -/
def recAlpha : AnswerRecord := ⟨7, ['a'], ['l'], ['p'], ['h'], "ans".data⟩

/-- C1 (code evaluation at the failing input): for a question whose
retrieved-and-reranked documents are `docsAlpha`, the generator succeeds, but
each of the four `Document` fields is a one-character string that is not one
of the four reranked documents — the claimed property is violated on this
input. -/
theorem generator_top4_fields_eval :
    processQuestion pipeAlpha qAlpha = .ok recAlpha ∧
      recAlpha.Document1 ∉ docsAlpha ∧ recAlpha.Document2 ∉ docsAlpha ∧
      recAlpha.Document3 ∉ docsAlpha ∧ recAlpha.Document4 ∉ docsAlpha :=
  ⟨rfl, by decide, by decide, by decide, by decide⟩

/-- The question loop fails whenever some question of the list fails. -/
lemma processQuestions_error {E : Type} (P : Pipeline E) :
    ∀ (qs : List Question) (q : Question) (e : GenErr), q ∈ qs →
      processQuestion P q = .error e →
      ∃ e', processQuestions P qs = .error e' := by
  intro qs
  induction qs with
  | nil =>
    intro q e h
    simp at h
  | cons q0 qs ih =>
    intro q e hq herr
    cases h0 : processQuestion P q0 with
    | error e0 =>
      exact ⟨e0, by simp [processQuestions, h0]⟩
    | ok a =>
      rcases List.mem_cons.mp hq with rfl | hq'
      · rw [h0] at herr
        simp at herr
      · rcases ih q e hq' herr with ⟨e', he'⟩
        exact ⟨e', by simp [processQuestions, h0, he']⟩

/-- The question loop succeeds with one answer per question when every
question succeeds. -/
lemma processQuestions_ok {E : Type} (P : Pipeline E) :
    ∀ (qs : List Question), (∀ q ∈ qs, ∃ a, processQuestion P q = .ok a) →
      ∃ answers, processQuestions P qs = .ok answers ∧
        answers.length = qs.length := by
  intro qs
  induction qs with
  | nil =>
    intro _
    exact ⟨[], rfl, rfl⟩
  | cons q0 qs ih =>
    intro h
    obtain ⟨a, ha⟩ := h q0 (List.mem_cons_self q0 qs)
    obtain ⟨as, has, hlen⟩ := ih fun q hq => h q (List.mem_cons_of_mem q0 hq)
    exact ⟨a :: as, by simp [processQuestions, ha, has], by simp [hlen]⟩

/-- C6: the question loop catches nothing — if any question's processing
fails, the run ends with the error and no output file is written, losing the
answers of the earlier questions; when every question succeeds the output
file is written exactly once, after all questions, with one answer per
question. -/
theorem generator_no_catch_single_write {E : Type} (P : Pipeline E)
    (questions : List Question) :
    ((∃ q ∈ questions, ∃ e, processQuestion P q = .error e) →
      ∃ e, llmGenerate P questions = ([], some e)) ∧
    ((∀ q ∈ questions, ∃ a, processQuestion P q = .ok a) →
      ∃ answers, llmGenerate P questions = ([answers], none) ∧
        answers.length = questions.length) := by
  constructor
  · rintro ⟨q, hq, e, he⟩
    obtain ⟨e', he'⟩ := processQuestions_error P questions q e hq he
    exact ⟨e', by simp [llmGenerate, he']⟩
  · intro h
    obtain ⟨as, has, hlen⟩ := processQuestions_ok P questions h
    exact ⟨as, by simp [llmGenerate, has], hlen⟩

/-- A pipeline whose chat call raises. -/
def pipeChatFail : Pipeline Unit :=
  { embed := fun _ => .ok ()
    retrieve := fun _ _ _ => .ok docsAlpha
    rerank := fun _ _ => .ok docsAlpha
    chat := fun _ => .error .chatFail }

/-- Witness: a failing chat call on the only question ends the run with no
write. -/
theorem generator_no_catch_single_write_w :
    ∃ e, llmGenerate pipeChatFail [qAlpha] = ([], some e) :=
  (generator_no_catch_single_write pipeChatFail [qAlpha]).1
    ⟨qAlpha, by decide, .chatFail, rfl⟩

/-- One character of a list as a take of a drop. -/
lemma take_one_drop (l : List Char) (i : Nat) (h : i < l.length) :
    (l.drop i).take 1 = [l.get ⟨i, h⟩] := by
  rw [List.drop_eq_getElem_cons h]
  rfl

/-- C9: when the external stages succeed, the answer record is built exactly
when the blank-line-joined context string has at least four characters
(otherwise the indexing raises and the run aborts), and each `Document` field
is the one-character string at positions 0–3 of that joined string. -/
theorem generator_context_indexing {E : Type} (P : Pipeline E) (q : Question)
    (emb : E) (docs ranked : List (List Char)) (resp : List Char)
    (he : P.embed q.query = .ok emb)
    (hr : P.retrieve emb q.category q.source = .ok docs)
    (hk : P.rerank q.query docs = .ok ranked)
    (hc : P.chat (templateFormat (List.intercalate nn ranked) q.query) = .ok resp) :
    ((∃ r, processQuestion P q = .ok r) ↔
      4 ≤ (List.intercalate nn ranked).length) ∧
    (∀ r, processQuestion P q = .ok r →
      r.Document1 = (List.intercalate nn ranked).take 1 ∧
      r.Document2 = ((List.intercalate nn ranked).drop 1).take 1 ∧
      r.Document3 = ((List.intercalate nn ranked).drop 2).take 1 ∧
      r.Document4 = ((List.intercalate nn ranked).drop 3).take 1 ∧
      r.Document1.length = 1 ∧ r.Document2.length = 1 ∧
      r.Document3.length = 1 ∧ r.Document4.length = 1) := by
  have hpq : processQuestion P q =
      buildAnswer q.qid (List.intercalate nn ranked) resp := by
    simp only [processQuestion, he, hr, hk, hc]
  constructor
  · rw [hpq]
    unfold buildAnswer
    by_cases h4 : 4 ≤ (List.intercalate nn ranked).length
    · rw [dif_pos h4]
      exact ⟨fun _ => h4, fun _ => ⟨_, rfl⟩⟩
    · rw [dif_neg h4]
      constructor
      · rintro ⟨r, hr0⟩
        simp at hr0
      · intro h
        exact absurd h h4
  · intro r hr0
    rw [hpq] at hr0
    unfold buildAnswer at hr0
    by_cases h4 : 4 ≤ (List.intercalate nn ranked).length
    · rw [dif_pos h4] at hr0
      simp only [Except.ok.injEq] at hr0
      subst hr0
      refine ⟨?_, ?_, ?_, ?_, rfl, rfl, rfl, rfl⟩
      · rw [show (List.intercalate nn ranked).take 1 =
          ((List.intercalate nn ranked).drop 0).take 1 by rw [List.drop_zero]]
        exact (take_one_drop _ 0 (by omega)).symm
      · exact (take_one_drop _ 1 (by omega)).symm
      · exact (take_one_drop _ 2 (by omega)).symm
      · exact (take_one_drop _ 3 (by omega)).symm
    · rw [dif_neg h4] at hr0
      simp at hr0

/-- Witness: under `pipeAlpha` the joined context has length at least four
and the record is built. -/
theorem generator_context_indexing_w :
    ∃ r, processQuestion pipeAlpha qAlpha = .ok r :=
  ((generator_context_indexing pipeAlpha qAlpha () docsAlpha docsAlpha
    "ans".data rfl rfl rfl rfl).1).mpr (by decide)

/-- C8: serialising a chunk list to a category JSON file and reading it back,
as the indexer does, recovers the chunk list exactly. -/
theorem chunk_json_round_trip (l : List ChunkRecord) :
    parseChunks (dumpChunks l) = some l := by
  cases l with
  | nil => rfl
  | cons r rs =>
    rw [show dumpChunks (r :: rs) = "[\n".data ++ dumpTail (r :: rs) from rfl]
    unfold parseChunks
    have hne : "[\n".data ++ dumpTail (r :: rs) ≠ "[]".data := by
      intro he
      have hlen := congrArg List.length he
      rw [List.length_append,
        show ("[\n".data : List Char).length = 2 from rfl,
        show ("[]".data : List Char).length = 2 from rfl] at hlen
      have h1 := dumpTail_pos r rs
      omega
    rw [if_neg hne]
    simp only [expectLit_append]
    exact parseRecordsGo_dumpTail (r :: rs) (by simp) _ (le_refl _)
